import Mathlib

/-!
Verification of the kinship-graph derivation engine of `csv_to_gedcomx`
(`src/utils.py`, together with the pipeline inlined in `src/main.py`).

The Python code operates on a GedcomX object graph: persons carrying typed
facts, and relationships (`parentChild` / `couple`) whose endpoints are
resource references of the form `"#<person id>"`.  The shallow embedding
below reproduces, person field by person field, the parts of that object
graph the engine consults: a person's `id` and `facts`; a fact's `type`,
`value` and `date`; a relationship's `type`, `person1` and `person2`.
Fields the engine never reads (names, gender, places, qualifiers) are
omitted; Python's structural equality on the remaining fields coincides
with the derived `DecidableEq` used here.  Python lists mutated in place
become explicitly threaded values; generators consumed eagerly by `min`
or a `for` loop become lists; raised exceptions become `Except`/`Option`
results; the unbounded recursion of `add_generations_recursive` and the
unbounded `while` stacks of `filter_relatives` take an explicit fuel
argument, `none` marking a run that did not complete.
-/

namespace CsvGedcomx

/-- Structural decidable equality on `Except`, so that concrete runs of
the embedded functions can be checked by `decide`. -/
instance {ε : Type u} {α : Type v} [DecidableEq ε] [DecidableEq α] :
    DecidableEq (Except ε α) := fun a b =>
  match a, b with
  | .ok x, .ok y =>
    if h : x = y then .isTrue (by rw [h]) else .isFalse (by simp [h])
  | .error x, .error y =>
    if h : x = y then .isTrue (by rw [h]) else .isFalse (by simp [h])
  | .ok _, .error _ => .isFalse (by simp)
  | .error _, .ok _ => .isFalse (by simp)

/-- `enums.FactType` restricted to the tags the engine inspects.
`other` stands for every remaining tag (maritalStatus, occupation, …). -/
inductive FactType where
  | birth
  | death
  | generationNumber
  | other
deriving DecidableEq, Repr

/-- `enums.RelationshipType` restricted to the two tags the engine
interprets (`couple`, `parentChild`); `other` is any further tag. -/
inductive RelType where
  | parentChild
  | couple
  | other
deriving DecidableEq, Repr

/-- A GedcomX formal date `+YYYY[-MM[-DD]]` in structured form: the
month / day component is `none` when the corresponding suffix is absent
from the formal string.  (The ingestion layer only produces such
strings; `date_to_python_date` re-appends `-01` for each missing
component before parsing.) -/
structure FormalDate where
  year : Nat
  month : Option Nat
  day : Option Nat
deriving DecidableEq, Repr

/-- `models.Date`: only the `formal` field is consulted (`formal = none`
models a Python `Date` whose `formal` attribute is `None`). -/
structure GDate where
  formal : Option FormalDate
deriving DecidableEq, Repr

/-- `models.Fact`: type tag, optional free-text `value` (generation
numbers are stored as decimal strings), optional `date`. -/
structure Fact where
  ftype : FactType
  value : Option String
  date : Option GDate
deriving DecidableEq, Repr

/-- `models.Person`: identity and the ordered fact list the engine
reads and mutates. -/
structure Person where
  id : String
  facts : List Fact
deriving DecidableEq, Repr

/-- `models.Relationship`: type tag and the two endpoint resource
references, kept verbatim as the `"#<id>"` strings found in the data. -/
structure Relationship where
  rtype : RelType
  person1 : String
  person2 : String
deriving DecidableEq, Repr

/-- `models.GedcomXObject` (the store / document root): the persons and
relationships sequences. -/
structure Store where
  persons : List Person
  relationships : List Relationship
deriving DecidableEq, Repr

/-- `resource[1:]`: strip the leading `#` of a resource reference. -/
def refId (s : String) : String := s.drop 1

/-! ### Python `str` / `int` on integers

The engine stores generation numbers with `str(generation)` and reads
them back with `int(fact.value)`.  `pyStr` / `pyInt` model those two
primitives on decimal integer strings: `pyStr` produces the canonical
decimal form (digits, with a leading `-` for negative numbers) and
`pyInt` accepts exactly a nonempty digit run with an optional leading
`-`, failing (as Python's `int` raises `ValueError`) on anything else. -/

/-- Decimal digit character of `d < 10`. -/
def digitChr (d : Nat) : Char := Char.ofNat (48 + d)

/-- Big-endian decimal digits of a natural number (fuel-based, like the
usual repeated division; `natDigits` supplies enough fuel). -/
def natDigitsAux : Nat → Nat → List Char → List Char
  | 0, _, acc => acc
  | fuel + 1, n, acc =>
    if n / 10 = 0 then digitChr (n % 10) :: acc
    else natDigitsAux fuel (n / 10) (digitChr (n % 10) :: acc)

/-- Big-endian decimal digits of `n` (`"0"` for zero). -/
def natDigits (n : Nat) : List Char := natDigitsAux (n + 1) n []

/-- Python `str` on an integer. -/
def pyStr (i : Int) : String :=
  match i with
  | .ofNat n => ⟨natDigits n⟩
  | .negSucc n => ⟨'-' :: natDigits (n + 1)⟩

/-- Is `c` a decimal digit? -/
def isDigitChr (c : Char) : Bool := 48 ≤ c.toNat && c.toNat ≤ 57

/-- Numeric value of a digit character. -/
def digitVal (c : Char) : Nat := c.toNat - 48

/-- Value of a nonempty big-endian digit run; `none` otherwise. -/
def decDigits? (cs : List Char) : Option Nat :=
  if cs.isEmpty then none
  else if cs.all isDigitChr then
    some (cs.foldl (fun a c => a * 10 + digitVal c) 0)
  else none

/-- Python `int` at the character-list level: a leading `-` negates a
digit run, everything else must be a digit run. -/
def pyIntL : List Char → Option Int
  | [] => none
  | c :: rest =>
    if c = '-' then (decDigits? rest).map (fun n => -(n : Int))
    else (decDigits? (c :: rest)).map (fun n => (n : Int))

/-- Python `int` on a string (`none` models the `ValueError`). -/
def pyInt (s : String) : Option Int := pyIntL s.data

/-! ### The Age Calculator (`get_age`, `date_to_python_date`) -/

/-- Gregorian leap year (as implemented by Python's `datetime`). -/
def isLeap (y : Nat) : Bool := (y % 4 == 0 && y % 100 != 0) || y % 400 == 0

/-- Days in month `m` of year `y`. -/
def daysInMonth (y m : Nat) : Nat :=
  if m == 2 then (if isLeap y then 29 else 28)
  else if m == 4 || m == 6 || m == 9 || m == 11 then 30
  else 31

/-- The validation performed by `datetime.date.fromisoformat`: a
calendar date within Python's supported year range. -/
def validYMD (y m d : Nat) : Bool :=
  1 ≤ y && y ≤ 9999 && 1 ≤ m && m ≤ 12 && 1 ≤ d && d ≤ daysInMonth y m

/-- Day number of a valid Gregorian date (days since 0000-03-01; only
differences of day numbers are ever used, exactly as Python only uses
`(a - b).days`). -/
def rataDie (y m d : Nat) : Nat :=
  let y' := if m ≤ 2 then y - 1 else y
  let era := y' / 400
  let yoe := y' % 400
  let mp := if m > 2 then m - 3 else m + 9
  let doy := (153 * mp + 2) / 5 + d - 1
  let doe := yoe * 365 + yoe / 4 - yoe / 100 + doy
  era * 146097 + doe

/-- `date_to_python_date`: pad a partial formal date with `-01` for a
missing month and day, then parse it; `none` models the `ValueError`
raised by `fromisoformat` on an invalid calendar date.  The result is
the day number of the date. -/
def dateToNum (fd : FormalDate) : Option Nat :=
  let m := fd.month.getD 1
  let d := fd.day.getD 1
  if validYMD fd.year m d then some (rataDie fd.year m d) else none

/-- The failure modes of `get_age`: the three `ValueError`s
(unknown birth, event before birth, invalid iso date) plus the
`TypeError` hit when the supplied reference date has `formal = None`. -/
inductive AgeErr where
  | birthUnknown
  | beforeBirth
  | invalidIso
  | badRefDate
deriving DecidableEq, Repr

/-- Age from a birth day number and a reference day number:
`(date - birthday).days // 365`, negative ages rejected. -/
def ageFrom (birthN refN : Nat) : Except AgeErr Int :=
  let age := Int.fdiv ((refN : Int) - (birthN : Int)) 365
  if age < 0 then .error .beforeBirth else .ok age

/-- `get_age(person, date)` (`src/utils.py` lines 7–28).  `today` is the
day number substituted for `datetime.date.today()` when `d = none`. -/
def getAge (p : Person) (d : Option GDate) (today : Nat) : Except AgeErr Int :=
  match p.facts.filter (fun f => f.ftype == FactType.birth) with
  | [] => .error .birthUnknown
  | b :: _ =>
    match b.date with
    | none => .error .birthUnknown
    | some bd =>
      match bd.formal with
      | none => .error .birthUnknown
      | some fd =>
        match dateToNum fd with
        | none => .error .invalidIso
        | some birthN =>
          match d with
          | none => ageFrom birthN today
          | some gd =>
            match gd.formal with
            | none => .error .badRefDate
            | some fr =>
              match dateToNum fr with
              | none => .error .invalidIso
              | some refN => ageFrom birthN refN

/-! ### The Kinship Navigator (`find_person_by_id`, `get_children`,
`get_parents`, `get_partners`, `get_siblings`) -/

/-- `find_person_by_id` (without the exception): first person whose id
matches. -/
def findPerson (s : Store) (pid : String) : Option Person :=
  s.persons.find? (fun p => p.id == pid)

/-- Ids of the children of `pid`: `person2` of every `parentChild`
relationship whose `person1` resolves to `pid`. -/
def childIds (s : Store) (pid : String) : List String :=
  (s.relationships.filter
      (fun r => r.rtype == RelType.parentChild && refId r.person1 == pid)).map
    (fun r => refId r.person2)

/-- Ids of the parents of `pid`. -/
def parentIds (s : Store) (pid : String) : List String :=
  (s.relationships.filter
      (fun r => r.rtype == RelType.parentChild && refId r.person2 == pid)).map
    (fun r => refId r.person1)

/-- `get_children` on a well-formed store: resolve each child id.
(`find_person_by_id` raises on a dangling reference; the id-level
functions above keep that failure observable where it matters, and the
person-level queries below are only used on resolvable references.) -/
def childrenOf (s : Store) (p : Person) : List Person :=
  (childIds s p.id).filterMap (findPerson s)

/-- `get_parents` on a well-formed store. -/
def parentsOf (s : Store) (p : Person) : List Person :=
  (parentIds s p.id).filterMap (findPerson s)

/-- `get_partners`: for every `couple` relationship touching `p`, the
other endpoint (`person1` when `person2` is `p`, else `person2`). -/
def partnersOf (s : Store) (p : Person) : List Person :=
  ((s.relationships.filter
        (fun r => r.rtype == RelType.couple &&
          (refId r.person1 == p.id || refId r.person2 == p.id))).map
      (fun r => if refId r.person2 == p.id then r.person1 else r.person2)).filterMap
    (fun ref => findPerson s (refId ref))

/-- `get_siblings`: every other person sharing at least one parent
(shared parents computed by structural membership, as Python's `in`
compares pydantic models structurally). -/
def siblingsOf (s : Store) (p : Person) : List Person :=
  s.persons.filter
    (fun q => q ≠ p && !((parentsOf s p).filter (fun par => par ∈ parentsOf s q)).isEmpty)

/-! ### The Generation Assigner
(`add_generations`, `add_generations_recursive` in `src/utils.py`;
the same pipeline is inlined in `main` / `add_generations` of
`src/main.py`, differing only in the straggler partner lookup, see
`strict` below.) -/

/-- Python `min` over the materialized generator. -/
def minL : List Int → Option Int
  | [] => none
  | x :: xs =>
    match minL xs with
    | none => some x
    | some m => some (min x m)

/-- First `generationNumber` fact of a person
(`next(f for f in person.facts if f.type == generationNumber)`). -/
def findGenFact (p : Person) : Option Fact :=
  p.facts.find? (fun f => f.ftype == FactType.generationNumber)

/-- The fact appended by the traversal:
`Fact(type=generationNumber, value=str(generation))`. -/
def genFact (g : Int) : Fact := ⟨FactType.generationNumber, some (pyStr g), none⟩

/-- Append a fresh generation fact to a person. -/
def stampP (p : Person) (g : Int) : Person := { p with facts := p.facts ++ [genFact g] }

/-- In-place mutation of `person.facts` through the store: the first
person with the given id gets the generation fact appended. -/
def stampList : List Person → String → Int → List Person
  | [], _, _ => []
  | p :: ps, pid, g =>
    if p.id == pid then stampP p g :: ps else p :: stampList ps pid g

/-- Stamp a person (by id) in a store. -/
def stampGen (s : Store) (pid : String) (g : Int) : Store :=
  { s with persons := stampList s.persons pid g }

/-- Run a traversal step over a list of ids, threading the store and
concatenating the yielded generation lists
(the `for parent in …: yield from …` loops). -/
def runMany (step : Store → String → Option (Store × List Int)) :
    Store → List String → Option (Store × List Int)
  | s, [] => some (s, [])
  | s, q :: rest =>
    match step s q with
    | none => none
    | some (s', ys) =>
      match runMany step s' rest with
      | none => none
      | some (s'', ys') => some (s'', ys ++ ys')

/-- `add_generations_recursive(root, person, generation)`
(`src/utils.py` lines 110–133), eagerly materialized: returns the
mutated store and the list of yielded generation values.  `none` means
the given fuel did not cover the recursion depth, or a parent/child
reference failed to resolve (Python's `ReferenceError`). -/
def addGenRec : Nat → Store → String → Int → Option (Store × List Int)
  | 0, _, _, _ => none
  | fuel + 1, s, pid, gen =>
    match findPerson s pid with
    | none => none
    | some p =>
      if (findGenFact p).isSome then some (s, [])
      else
        let s1 := stampGen s pid gen
        match runMany (fun s' q => addGenRec fuel s' q (gen - 1)) s1 (parentIds s pid) with
        | none => none
        | some (s2, ys1) =>
          match runMany (fun s' q => addGenRec fuel s' q (gen + 1)) s2 (childIds s pid) with
          | none => none
          | some (s3, ys2) => some (s3, ys1 ++ ys2 ++ [gen])

/-- Failure modes of the generation pipeline.  `noPersons` is the
`IndexError` on an empty store; `traversal` covers a fuel-exhausted or
dangling-reference recursive walk; `emptyMin` is the `ValueError` of
`min()` on an empty yield sequence; `dangling` a partner reference that
does not resolve; `badValue` Python's `int()` / attribute error on a
generation value that is absent or not a decimal string; `noPartner`
the `StopIteration` that escapes `main.py`'s straggler lookup. -/
inductive GenErr where
  | noPersons
  | traversal
  | emptyMin
  | dangling
  | badValue
  | noPartner
deriving DecidableEq, Repr

/-- First `couple` relationship containing `pid`
(`next(… for r in root.relationships if r.type == couple and …)`). -/
def firstCoupleRel (s : Store) (pid : String) : Option Relationship :=
  s.relationships.find?
    (fun r => r.rtype == RelType.couple &&
      (refId r.person1 == pid || refId r.person2 == pid))

/-- `r.person1 if r.person2.resource[1:] == person.id else r.person2`. -/
def partnerRef (r : Relationship) (pid : String) : String :=
  if refId r.person2 == pid then r.person1 else r.person2

/-- The straggler-reconnection loop (`for person in not_reached: …`,
`src/utils.py` lines 64–87 / `src/main.py` lines 37–56).  `not_reached`
is a lazy generator over `root.persons`, so each person's "has no
generation fact yet" test happens against the store as mutated so far;
the loop therefore walks the (static) id sequence, re-reading the
current store at every step.  `strict = false` is `utils.py`, where a
person with no couple relationship is logged and skipped;
`strict = true` is `main.py`, where the same `StopIteration` escapes
and aborts the pipeline — the only difference between the two sources. -/
def stragglerLoop (strict : Bool) (fuel : Nat) :
    List String → Store → Int → Except GenErr (Store × Int)
  | [], s, minGen => .ok (s, minGen)
  | pid :: rest, s, minGen =>
    match findPerson s pid with
    | none => stragglerLoop strict fuel rest s minGen
    | some p =>
      if (findGenFact p).isSome then stragglerLoop strict fuel rest s minGen
      else
        match firstCoupleRel s pid with
        | none =>
          if strict then .error .noPartner
          else stragglerLoop strict fuel rest s minGen
        | some r =>
          match findPerson s (refId (partnerRef r pid)) with
          | none => .error .dangling
          | some partner =>
            match findGenFact partner with
            | none => stragglerLoop strict fuel rest s minGen
            | some f =>
              match f.value with
              | none => .error .badValue
              | some v =>
                match pyInt v with
                | none => .error .badValue
                | some g =>
                  match addGenRec fuel s pid g with
                  | none => .error .traversal
                  | some (s', ys) =>
                    match minL ys with
                    | none => .error .emptyMin
                    | some m =>
                      stragglerLoop strict fuel rest s'
                        (if -m > minGen then -m else minGen)

/-- `Fact(type=death)` appended by the presumed-death heuristic. -/
def deathFact : Fact := ⟨FactType.death, none, none⟩

/-- Rewrite the value of the first generation fact
(`generation_fact.value = str(generation)` mutates the fact object
found by `next`). -/
def setGenValueFacts : List Fact → String → List Fact
  | [], _ => []
  | f :: fs, v =>
    if f.ftype == FactType.generationNumber then { f with value := some v } :: fs
    else f :: setGenValueFacts fs v

/-- `setGenValueFacts` lifted to a person. -/
def setGenValue (p : Person) (v : String) : Person :=
  { p with facts := setGenValueFacts p.facts v }

/-- The normalization step for one person (`src/utils.py` lines 95–107):
shift the generation value by `minGen` and, for a person without a
death fact whose heuristic age exceeds 120, append a dateless death
fact.  `generation_start` equals the final `min_generation`. -/
def normalizePerson (minGen ageStart : Int) (p : Person) : Except GenErr Person :=
  match findGenFact p with
  | none => .ok p
  | some f =>
    match f.value with
    | none => .error .badValue
    | some str =>
      match pyInt str with
      | none => .error .badValue
      | some g =>
        let gen := g + minGen
        let p1 := setGenValue p (pyStr gen)
        let isDead := !(p1.facts.filter (fun f => f.ftype == FactType.death)).isEmpty
        if !isDead && (minGen - gen) * 25 + ageStart > 120 then
          .ok { p1 with facts := p1.facts ++ [deathFact] }
        else .ok p1

/-- Normalization over the person sequence. -/
def normList (minGen ageStart : Int) : List Person → Except GenErr (List Person)
  | [] => .ok []
  | p :: ps =>
    match normalizePerson minGen ageStart p with
    | .error e => .error e
    | .ok p' =>
      match normList minGen ageStart ps with
      | .error e => .error e
      | .ok ps' => .ok (p' :: ps')

/-- `age_start`: `get_age(root.persons[0])` with every `ValueError`
caught and replaced by 0. -/
def ageStartOf (today : Nat) (s : Store) : Int :=
  match s.persons with
  | [] => 0
  | p :: _ => ((getAge p none today).toOption).getD 0

/-- `add_generations(root)` (`src/utils.py` lines 57–107) with
`strict = false`, and the pipeline inlined in `main`
(`src/main.py` lines 36–76) with `strict = true`: seed traversal from
the first person, straggler reconnection, then normalization with the
presumed-death heuristic.  `today` stands in for
`datetime.date.today()` and `fuel` bounds the recursion depth. -/
def addGenerationsCore (strict : Bool) (today fuel : Nat) (s : Store) :
    Except GenErr Store :=
  match s.persons with
  | [] => .error .noPersons
  | p0 :: _ =>
    match addGenRec fuel s p0.id 0 with
    | none => .error .traversal
    | some (s1, ys) =>
      match minL ys with
      | none => .error .emptyMin
      | some m =>
        match stragglerLoop strict fuel (s.persons.map (fun p => p.id)) s1 (-m) with
        | .error e => .error e
        | .ok (s2, minGen) =>
          match normList minGen (ageStartOf today s2) s2.persons with
          | .error e => .error e
          | .ok ps => .ok { s2 with persons := ps }

/-- `add_generations` of `src/utils.py`. -/
def addGenerations (today fuel : Nat) (s : Store) : Except GenErr Store :=
  addGenerationsCore false today fuel s

/-- The generation pipeline of `src/main.py`'s `main`. -/
def mainAddGenerations (today fuel : Nat) (s : Store) : Except GenErr Store :=
  addGenerationsCore true today fuel s

/-! ### The Relative Filter (`filter_relatives`, `src/utils.py`
lines 192–229) -/

/-- Failure modes of `filter_relatives`: the `ReferenceError` for a
missing anchor, the two `assert` statements, and fuel exhaustion of a
`while` loop (the Python loops carry no visited check, so they need
not terminate). -/
inductive FilterErr where
  | notFound
  | assertPersons
  | assertRels
  | fuelOut
deriving DecidableEq, Repr

/-- One of the two `while len(stack) > 0` loops: pop from the end of
the stack, append every child (resp. parent) of the popped person to
both the relative list and the stack. -/
def stackLoop (step : Store → Person → List Person) :
    Nat → Store → List Person → List Person → Option (List Person)
  | 0, _, rel, stack => if stack.isEmpty then some rel else none
  | fuel + 1, s, rel, stack =>
    match stack.getLast? with
    | none => some rel
    | some x =>
      let cs := step s x
      stackLoop step fuel s (rel ++ cs) (stack.dropLast ++ cs)

/-- `filter_relatives(root, person_id)`: collect the anchor and its
siblings, close under children (descendants), close the anchor under
parents (ancestors), append the partners of a snapshot of the
collection, then keep only the collected persons and the relationships
with both endpoints among them.  Membership tests are structural, as in
Python. -/
def filterRelatives (fuel : Nat) (s : Store) (pid : String) :
    Except FilterErr Store :=
  match findPerson s pid with
  | none => .error .notFound
  | some person =>
    let rel0 := person :: siblingsOf s person
    match stackLoop childrenOf fuel s rel0 rel0 with
    | none => .error .fuelOut
    | some rel1 =>
      match stackLoop parentsOf fuel s rel1 [person] with
      | none => .error .fuelOut
      | some rel2 =>
        let rel3 := rel2 ++ (rel2.map (partnersOf s)).flatten
        let persons' := s.persons.filter (fun p => p ∈ rel3)
        let ids := rel3.map (fun p => p.id)
        let rels' := s.relationships.filter
          (fun r => refId r.person1 ∈ ids && refId r.person2 ∈ ids)
        if persons'.isEmpty then .error .assertPersons
        else if rels'.isEmpty then .error .assertRels
        else .ok ⟨persons', rels'⟩

/-! ### Derived notions used to state the properties -/

/-- Parsed generation value of a person (the integer stored in the
first `generationNumber` fact, when present and parseable). -/
def genValOf (p : Person) : Option Int :=
  (findGenFact p).bind (fun f => f.value.bind pyInt)

/-- Generation values of all labeled persons of a store. -/
def labeledVals (s : Store) : List Int := s.persons.filterMap genValOf

/-- First generation fact of the person with the given id. -/
def findGenFactId (s : Store) (pid : String) : Option Fact :=
  (findPerson s pid).bind findGenFact

/-- No person of the store carries a generation fact yet. -/
def AllUnlabeled (s : Store) : Prop := ∀ p ∈ s.persons, findGenFact p = none

instance (s : Store) : Decidable (AllUnlabeled s) :=
  decidable_of_iff (∀ p ∈ s.persons, findGenFact p = none) Iff.rfl

/-- A `parentChild` relationship connects the two ids, in either
direction. -/
def pcAdj (s : Store) (a b : String) : Prop :=
  ∃ r ∈ s.relationships, r.rtype = RelType.parentChild ∧
    ((refId r.person1 = a ∧ refId r.person2 = b) ∨
      (refId r.person1 = b ∧ refId r.person2 = a))

/-- Reachability along `parentChild` edges (in either direction),
starting from the id `a`. -/
inductive ReachPC (s : Store) (a : String) : String → Prop
  | refl : ReachPC s a a
  | tail {b c : String} : ReachPC s a b → pcAdj s b c → ReachPC s a c

/-- Descendant relation: transitive closure of `childrenOf`. -/
inductive DescFrom (s : Store) : Person → Person → Prop
  | child {x c : Person} : c ∈ childrenOf s x → DescFrom s x c
  | step {x c d : Person} : c ∈ childrenOf s x → DescFrom s c d → DescFrom s x d

/-- Ancestor relation: transitive closure of `parentsOf`. -/
inductive AncFrom (s : Store) : Person → Person → Prop
  | parent {x c : Person} : c ∈ parentsOf s x → AncFrom s x c
  | step {x c d : Person} : c ∈ parentsOf s x → AncFrom s c d → AncFrom s x d

/-- Transitive closure of a one-step neighbor function (specializes
to `DescFrom` for `childrenOf` and to `AncFrom` for `parentsOf`). -/
inductive CloseFrom (f : Store → Person → List Person) (s : Store) :
    Person → Person → Prop
  | base {x c : Person} : c ∈ f s x → CloseFrom f s x c
  | trans {x c d : Person} : c ∈ f s x → CloseFrom f s c d → CloseFrom f s x d

/-- The relative collection of `filter_relatives`, in closed form: the
anchor, its siblings, every descendant of the anchor or of one of its
siblings, and every ancestor of the anchor. -/
def RelClose (s : Store) (anchor p : Person) : Prop :=
  p = anchor ∨ p ∈ siblingsOf s anchor ∨
    (∃ x, (x = anchor ∨ x ∈ siblingsOf s anchor) ∧ DescFrom s x p) ∨
    AncFrom s anchor p

/-- A relationship touches the given person id at either endpoint. -/
def touches (r : Relationship) (pid : String) : Prop :=
  refId r.person1 = pid ∨ refId r.person2 = pid

instance (r : Relationship) (pid : String) : Decidable (touches r pid) :=
  decidable_of_iff (refId r.person1 = pid ∨ refId r.person2 = pid) Iff.rfl

/-- The spec-side reading of the Age Calculator's precondition:
exactly one birth fact, carrying a fully specified formal calendar
date (year, month and day all present). -/
def hasExactlyOneFullBirth (p : Person) : Bool :=
  match p.facts.filter (fun f => f.ftype == FactType.birth) with
  | [b] =>
    match b.date with
    | some bd =>
      match bd.formal with
      | some fd => fd.month.isSome && fd.day.isSome
      | none => false
    | none => false
  | _ => false

/-- Parsed generation value of the person with the given id. -/
def genValOfId (s : Store) (pid : String) : Option Int :=
  (findGenFactId s pid).bind (fun f => f.value.bind pyInt)

/-- Generation values of the labeled persons of a person list. -/
def valsL (l : List Person) : List Int := l.filterMap genValOf

/-- How the generation traversal evolves a store: relationships and the
id sequence are untouched, and a generation fact, once present, is
never changed. -/
def Evol (s s' : Store) : Prop :=
  s'.relationships = s.relationships ∧
    s'.persons.map (fun p => p.id) = s.persons.map (fun p => p.id) ∧
    ∀ pid f, findGenFactId s pid = some f → findGenFactId s' pid = some f

/-- Positional evolution of the person sequence under a traversal that
yielded the values `ys`: every person is either untouched or was
unlabeled and received one fresh generation fact with a value from
`ys`. -/
def StampEvolve (ys : List Int) : List Person → List Person → Prop
  | [], [] => True
  | p :: ps, q :: qs =>
    (q = p ∨ (findGenFact p = none ∧ ∃ g ∈ ys, q = stampP p g)) ∧
      StampEvolve ys ps qs
  | _, _ => False

/-- The id takes part in some `parentChild` relationship. -/
def ConnectedPC (s : Store) (q : String) : Prop :=
  parentIds s q ≠ [] ∨ childIds s q ≠ []

/-- What `get_age` actually tests before giving up: no birth fact at
all, or a first birth fact without a formal date.  (Later birth facts
and the completeness of the date are not consulted.) -/
def noFormalFirstBirth (p : Person) : Bool :=
  match p.facts.filter (fun f => f.ftype == FactType.birth) with
  | [] => true
  | b :: _ =>
    match b.date with
    | none => true
    | some bd => bd.formal.isNone

/-! ### Concrete stores used in counterexamples and witnesses -/

/-- A person with no facts. -/
def mkP (i : String) : Person := ⟨i, []⟩

/-- A `parentChild` relationship from parent id to child id. -/
def pcRel (a b : String) : Relationship :=
  ⟨RelType.parentChild, "#" ++ a, "#" ++ b⟩

/-- A `couple` relationship between two ids. -/
def cpRel (a b : String) : Relationship :=
  ⟨RelType.couple, "#" ++ a, "#" ++ b⟩

/-- Chain a→b→c of parent/child edges (the spec's A=0, B=1, C=2
end-to-end example). -/
def stChain : Store :=
  ⟨[mkP "a", mkP "b", mkP "c"], [pcRel "a" "b", pcRel "b" "c"]⟩

/-- Seed s with child a; p and q joined by a couple edge, and p also
joined to a by a couple edge listed second. -/
def stFirstCouple : Store :=
  ⟨[mkP "s", mkP "a", mkP "p", mkP "q"],
    [pcRel "s" "a", cpRel "p" "q", cpRel "p" "a"]⟩

/-- An unlabeled seed a next to a person b pre-labeled with
generation −5, with no relationships. -/
def stPrelabeled : Store :=
  ⟨[mkP "a", ⟨"b", [genFact (-5)]⟩], []⟩

/-- parentChild cycle a→b→a. -/
def stCycle : Store :=
  ⟨[mkP "a", mkP "b"], [pcRel "a" "b", pcRel "b" "a"]⟩

/-- p parent of the seed s; d tied to s only by a couple edge. -/
def stCoupleShift : Store :=
  ⟨[mkP "s", mkP "p", mkP "d"], [pcRel "p" "s", cpRel "s" "d"]⟩

/-- Two persons, no relationships: b is left unlabeled and has no
couple relationship. -/
def stNoCouple : Store := ⟨[mkP "a", mkP "b"], []⟩

/-- A birth fact on a fully specified formal date. -/
def birthOn (y m d : Nat) : Fact :=
  ⟨FactType.birth, none, some ⟨some ⟨y, some m, some d⟩⟩⟩

/-- A person born 1990-01-01. -/
def pBorn1990 : Person := ⟨"x", [birthOn 1990 1 1]⟩

/-- A person whose single birth fact has a year-only formal date. -/
def pBornYearOnly : Person :=
  ⟨"y", [⟨FactType.birth, none, some ⟨some ⟨1990, none, none⟩⟩⟩]⟩

/-- The reference date 2020-01-01. -/
def dRef2020 : GDate := ⟨some ⟨2020, some 1, some 1⟩⟩

/-- A single person with one relationship not touching them. -/
def stLoner : Store := ⟨[mkP "a", mkP "b", mkP "c"], [pcRel "b" "c"]⟩

/-- The chain store as produced by a successful `add_generations` run:
generations 0, 1, 2 already stamped and normalized. -/
def stChainLabeled : Store :=
  ⟨[⟨"a", [genFact 0]⟩, ⟨"b", [genFact 1]⟩, ⟨"c", [genFact 2]⟩],
    [pcRel "a" "b", pcRel "b" "c"]⟩

/-- Seed a with child b; d tied to a only by a couple edge. -/
def stCouple : Store :=
  ⟨[mkP "a", mkP "b", mkP "d"], [pcRel "a" "b", cpRel "a" "d"]⟩

/-- `stCouple` after the seed traversal: a and b stamped, d untouched. -/
def stCoupleSeed : Store :=
  ⟨[⟨"a", [genFact 0]⟩, ⟨"b", [genFact 1]⟩, mkP "d"],
    [pcRel "a" "b", cpRel "a" "d"]⟩

/-- `stCouple` after the whole run: d reconciled to a's generation. -/
def stCoupleOut : Store :=
  ⟨[⟨"a", [genFact 0]⟩, ⟨"b", [genFact 1]⟩, ⟨"d", [genFact 0]⟩],
    [pcRel "a" "b", cpRel "a" "d"]⟩

/-- `stCoupleShift` after the seed traversal: s at raw generation 0,
its parent p at −1, d untouched. -/
def stCoupleShiftSeed : Store :=
  ⟨[⟨"s", [genFact 0]⟩, ⟨"p", [genFact (-1)]⟩, mkP "d"],
    [pcRel "p" "s", cpRel "s" "d"]⟩

/-! ## Lemma library

### Round trip between `pyStr` and `pyInt` -/

theorem isDigitChr_digitChr {d : Nat} (h : d < 10) : isDigitChr (digitChr d) = true := by
  interval_cases d <;> decide

theorem digitVal_digitChr {d : Nat} (h : d < 10) : digitVal (digitChr d) = d := by
  interval_cases d <;> decide

theorem digitChr_ne_dash {d : Nat} (h : d < 10) : digitChr d ≠ '-' := by
  interval_cases d <;> decide

theorem natDigitsAux_eq {fuel n : Nat} (acc : List Char) (h0 : 0 < n)
    (h : n < 10 ^ fuel) :
    natDigitsAux fuel n acc = ((Nat.digits 10 n).map digitChr).reverse ++ acc := by
  induction fuel generalizing n acc with
  | zero => simp at h; omega
  | succ fuel ih =>
    rw [natDigitsAux]
    by_cases hdiv : n / 10 = 0
    · have hn10 : n < 10 := by omega
      rw [if_pos hdiv, Nat.digits_def' (b := 10) (by norm_num) h0, hdiv]
      simp [Nat.mod_eq_of_lt hn10]
    · rw [if_neg hdiv]
      have hlt : n / 10 < 10 ^ fuel := by
        have h' : n < 10 ^ fuel * 10 := by rw [← pow_succ]; exact h
        exact Nat.div_lt_of_lt_mul (by rw [mul_comm]; exact h')
      rw [ih _ (Nat.pos_of_ne_zero hdiv) hlt,
        Nat.digits_def' (b := 10) (by norm_num) h0]
      simp

theorem natDigits_eq {n : Nat} (h0 : 0 < n) :
    natDigits n = ((Nat.digits 10 n).map digitChr).reverse := by
  have hle : n < 10 ^ (n + 1) := by
    calc n < 10 ^ n := Nat.lt_pow_self (by norm_num) n
    _ ≤ 10 ^ (n + 1) := Nat.pow_le_pow_right (by norm_num) (Nat.le_succ n)
  rw [natDigits, natDigitsAux_eq [] h0 hle, List.append_nil]

theorem foldl_digits_rev (l : List Nat) (hl : ∀ d ∈ l, d < 10) (a : Nat) :
    List.foldl (fun acc c => acc * 10 + digitVal c) a ((l.map digitChr).reverse) =
      a * 10 ^ l.length + Nat.ofDigits 10 l := by
  induction l generalizing a with
  | nil => simp [Nat.ofDigits]
  | cons d t ih =>
    simp only [List.map_cons, List.reverse_cons, List.foldl_append, List.foldl_cons,
      List.foldl_nil]
    rw [ih (fun x hx => hl x (List.mem_cons_of_mem _ hx)),
      digitVal_digitChr (hl d (List.mem_cons_self _ _)), Nat.ofDigits_cons,
      List.length_cons, pow_succ]
    ring

theorem decDigits?_natDigits (n : Nat) : decDigits? (natDigits n) = some n := by
  rcases Nat.eq_zero_or_pos n with h | h
  · subst h; decide
  · have hd : ∀ d ∈ Nat.digits 10 n, d < 10 := fun d hdm =>
      Nat.digits_lt_base (by norm_num) hdm
    have hne : Nat.digits 10 n ≠ [] := Nat.digits_ne_nil_iff_ne_zero.mpr h.ne'
    rw [natDigits_eq h, decDigits?]
    rw [if_neg (by simp [List.isEmpty_iff, hne]), if_pos ?_]
    · rw [foldl_digits_rev _ hd 0, Nat.ofDigits_digits]
      simp
    · rw [List.all_eq_true]
      intro c hc
      rw [List.mem_reverse, List.mem_map] at hc
      obtain ⟨d, hd', rfl⟩ := hc
      exact isDigitChr_digitChr (hd d hd')

theorem natDigits_head_digit (n : Nat) :
    ∃ c cs, natDigits n = c :: cs ∧ isDigitChr c = true := by
  rcases Nat.eq_zero_or_pos n with h | h
  · subst h; exact ⟨'0', [], by decide, by decide⟩
  · rcases hds : natDigits n with _ | ⟨c, cs⟩
    · rw [natDigits_eq h] at hds
      have : Nat.digits 10 n ≠ [] := Nat.digits_ne_nil_iff_ne_zero.mpr h.ne'
      simp at hds
      exact absurd hds this
    · refine ⟨c, cs, rfl, ?_⟩
      have hc : c ∈ natDigits n := by rw [hds]; exact List.mem_cons_self _ _
      rw [natDigits_eq h, List.mem_reverse, List.mem_map] at hc
      obtain ⟨d, hd', rfl⟩ := hc
      exact isDigitChr_digitChr (Nat.digits_lt_base (by norm_num) hd')

/-- Round trip: the engine always reads back the value it stored. -/
theorem pyInt_pyStr (i : Int) : pyInt (pyStr i) = some i := by
  cases i with
  | ofNat n =>
    obtain ⟨c, cs, hcons, hdig⟩ := natDigits_head_digit n
    have hne : c ≠ '-' := by
      intro hcd
      subst hcd
      exact absurd hdig (by decide)
    show pyIntL (natDigits n) = some (Int.ofNat n)
    rw [hcons, pyIntL, if_neg hne, ← hcons, decDigits?_natDigits]
    rfl
  | negSucc n =>
    show pyIntL ('-' :: natDigits (n + 1)) = some (Int.negSucc n)
    rw [pyIntL, if_pos rfl, decDigits?_natDigits]
    simp [Int.negSucc_eq]

theorem genValOf_stampP {p : Person} (hp : findGenFact p = none) (g : Int) :
    findGenFact (stampP p g) = some (genFact g) := by
  rw [stampP, findGenFact, List.find?_append]
  rw [findGenFact] at hp
  rw [hp]
  rfl

/-! ### Lemmas about `minL` (Python's `min` on a materialized list) -/

theorem minL_mem {l : List Int} {m : Int} (h : minL l = some m) : m ∈ l := by
  induction l generalizing m with
  | nil => simp [minL] at h
  | cons x xs ih =>
    rw [minL] at h
    rcases hxs : minL xs with _ | m'
    · rw [hxs] at h
      simp at h
      simp [h]
    · rw [hxs] at h
      simp at h
      rcases le_total x m' with hle | hle
      · rw [min_eq_left hle] at h
        simp [← h]
      · rw [min_eq_right hle] at h
        exact List.mem_cons_of_mem _ (ih (by rw [hxs, h]))

theorem minL_eq_none {l : List Int} (h : minL l = none) : l = [] := by
  rcases l with _ | ⟨x, xs⟩
  · rfl
  · rw [minL] at h
    rcases hxs : minL xs with _ | m' <;> rw [hxs] at h <;> simp at h

theorem minL_le {l : List Int} {m : Int} (h : minL l = some m) :
    ∀ x ∈ l, m ≤ x := by
  induction l generalizing m with
  | nil => simp
  | cons x xs ih =>
    rw [minL] at h
    rcases hxs : minL xs with _ | m'
    · rw [hxs] at h
      simp at h
      have hnil := minL_eq_none hxs
      subst hnil
      intro y hy
      rcases List.mem_cons.mp hy with rfl | hy'
      · omega
      · simp at hy'
    · rw [hxs] at h
      simp at h
      intro y hy
      rcases List.mem_cons.mp hy with rfl | hy'
      · rw [← h]
        exact min_le_left _ _
      · calc m ≤ m' := by rw [← h]; exact min_le_right _ _
          _ ≤ y := ih hxs y hy'

theorem minL_isSome {l : List Int} (h : l ≠ []) : ∃ m, minL l = some m := by
  rcases l with _ | ⟨x, xs⟩
  · exact absurd rfl h
  · rw [minL]
    rcases minL xs with _ | m'
    · exact ⟨x, rfl⟩
    · exact ⟨min x m', rfl⟩

/-! ## The Age Calculator: claims C7 and C8 -/

theorem ageFrom_eq (b r : Nat) :
    ageFrom b r =
      if Int.fdiv ((r : Int) - (b : Int)) 365 < 0 then Except.error AgeErr.beforeBirth
      else Except.ok (Int.fdiv ((r : Int) - (b : Int)) 365) := rfl

theorem ageFrom_ne_birthUnknown (b r : Nat) :
    ageFrom b r ≠ Except.error AgeErr.birthUnknown := by
  rw [ageFrom_eq]
  split <;> simp

/-- C7, counterexample: the claim says `get_age` fails with
`InvalidDate("birth unknown")` for every person that does not have
exactly one birth fact with a *fully specified* formal date.  A person
whose single birth fact has only a year (`+1990`) is such a person,
yet `get_age` pads the date to 1990-01-01 and succeeds, returning 30
at reference date 2020-01-01. -/
theorem c7_counterexample :
    hasExactlyOneFullBirth pBornYearOnly = false ∧
      getAge pBornYearOnly (some dRef2020) 0 = Except.ok 30 :=
  ⟨by decide, by decide⟩

/-- C7, amended: `get_age` fails with the birth-unknown error exactly
when the person has no birth fact or the *first* birth fact has no
formal date at all (partial dates are padded, later birth facts
ignored); when the first birth fact has a valid formal date and the
reference date resolves, the result is `ageFrom`, i.e. the
event-before-birth error for a negative age and an integer otherwise. -/
theorem c7_age_error_characterization (p : Person) (d : Option GDate) (t : Nat) :
    (getAge p d t = Except.error AgeErr.birthUnknown ↔ noFormalFirstBirth p = true) ∧
      (∀ b bs bd fd bN,
        p.facts.filter (fun f => f.ftype == FactType.birth) = b :: bs →
        b.date = some bd → bd.formal = some fd → dateToNum fd = some bN →
        ((∀ gd fr rN, d = some gd → gd.formal = some fr → dateToNum fr = some rN →
            getAge p d t = ageFrom bN rN) ∧
          (d = none → getAge p d t = ageFrom bN t))) := by
  constructor
  · simp only [getAge, noFormalFirstBirth]
    rcases hb : p.facts.filter (fun f => f.ftype == FactType.birth) with _ | ⟨b, bs⟩
    · simp [hb]
    · simp only [hb]
      rcases hd : b.date with _ | bd
      · simp [hd]
      · simp only [hd]
        rcases hf : bd.formal with _ | fd
        · simp [hf]
        · simp only [hf, Option.isNone_some]
          rcases hn : dateToNum fd with _ | bN
          · simp [hn]
          · simp only [hn]
            rcases d with _ | gd
            · simp [ageFrom_ne_birthUnknown]
            · rcases hgf : gd.formal with _ | fr
              · simp [hgf]
              · simp only [hgf]
                rcases hrn : dateToNum fr with _ | rN
                · simp [hrn]
                · simp [hrn, ageFrom_ne_birthUnknown]
  · intro b bs bd fd bN hb hd hf hn
    constructor
    · intro gd fr rN hgd hgf hrn
      subst hgd
      simp only [getAge, hb, hd, hf, hn, hgf, hrn]
    · intro hnone
      subst hnone
      simp only [getAge, hb, hd, hf, hn]

/-- Witness for the amended C7: for the person born 1990-01-01 and
reference date 2020-01-01, the characterization yields `ok 30`. -/
theorem c7_age_error_characterization_witness :
    getAge pBorn1990 (some dRef2020) 0 = Except.ok 30 := by
  have h := (c7_age_error_characterization pBorn1990 (some dRef2020) 0).2
    (birthOn 1990 1 1) [] ⟨some ⟨1990, some 1, some 1⟩⟩ ⟨1990, some 1, some 1⟩
    726773 (by decide) (by decide) (by decide) (by decide)
  rw [h.1 dRef2020 ⟨2020, some 1, some 1⟩ 737730 rfl (by decide) (by decide)]
  decide

/-- C8 (confirmed): whenever `get_age` succeeds on a person whose
first birth fact carries a formal date and on an explicit reference
date, the returned age is the floor of the day-count between the
(`-01`-padded) birth date and the (`-01`-padded) reference date,
divided by 365. -/
theorem c8_age_is_floor_day_count (p : Person) (gd : GDate) (t : Nat) (a : Int)
    (b : Fact) (bs : List Fact) (bd : GDate) (fd fr : FormalDate) (bN rN : Nat)
    (hb : p.facts.filter (fun f => f.ftype == FactType.birth) = b :: bs)
    (hd : b.date = some bd) (hf : bd.formal = some fd)
    (hbN : dateToNum fd = some bN)
    (hgf : gd.formal = some fr) (hrN : dateToNum fr = some rN)
    (hok : getAge p (some gd) t = Except.ok a) :
    a = Int.fdiv ((rN : Int) - (bN : Int)) 365 := by
  rw [((c7_age_error_characterization p (some gd) t).2 b bs bd fd bN hb hd hf hbN).1
    gd fr rN rfl hgf hrN] at hok
  rw [ageFrom_eq] at hok
  rcases lt_or_le (Int.fdiv ((rN : Int) - (bN : Int)) 365) 0 with hlt | hle
  · rw [if_pos hlt] at hok
    exact absurd hok (by simp)
  · rw [if_neg (not_lt.mpr hle)] at hok
    simpa using hok.symm

/-- Witness for C8: the spec's own instance — born 1990-01-01,
reference 2020-01-01 — gives 30 = ⌊10957 / 365⌋. -/
theorem c8_age_is_floor_day_count_witness :
    (30 : Int) = Int.fdiv ((737730 : Int) - (726773 : Int)) 365 :=
  c8_age_is_floor_day_count pBorn1990 dRef2020 0 30 (birthOn 1990 1 1) []
    ⟨some ⟨1990, some 1, some 1⟩⟩ ⟨1990, some 1, some 1⟩ ⟨2020, some 1, some 1⟩
    726773 737730 (by decide) (by decide) (by decide) (by decide) (by decide)
    (by decide) (by decide)

/-! ## The Relative Filter: error behavior (claim C9) -/

theorem findPerson_mem {s : Store} {pid : String} {p : Person}
    (h : findPerson s pid = some p) : p ∈ s.persons :=
  List.mem_of_find?_eq_some h

theorem findPerson_id {s : Store} {pid : String} {p : Person}
    (h : findPerson s pid = some p) : p.id = pid := by
  have := List.find?_some h
  simpa using this

theorem stackLoop_nil (step : Store → Person → List Person) (fuel : Nat)
    (s : Store) (rel : List Person) : stackLoop step fuel s rel [] = some rel := by
  cases fuel <;> rfl

theorem stackLoop_single {step : Store → Person → List Person} {fuel : Nat}
    {s : Store} {p : Person} (rel : List Person) (hstep : step s p = [])
    (h : 1 ≤ fuel) : stackLoop step fuel s rel [p] = some rel := by
  rcases fuel with _ | n
  · omega
  · rw [stackLoop]
    simp [hstep, stackLoop_nil]

theorem parentIds_eq_nil {s : Store} {pid : String}
    (h : ∀ r ∈ s.relationships, ¬touches r pid) : parentIds s pid = [] := by
  rw [parentIds, List.map_eq_nil_iff, List.filter_eq_nil_iff]
  intro r hr
  intro hcontra
  simp only [Bool.and_eq_true, beq_iff_eq] at hcontra
  exact h r hr (Or.inr hcontra.2)

theorem childIds_eq_nil {s : Store} {pid : String}
    (h : ∀ r ∈ s.relationships, ¬touches r pid) : childIds s pid = [] := by
  rw [childIds, List.map_eq_nil_iff, List.filter_eq_nil_iff]
  intro r hr
  intro hcontra
  simp only [Bool.and_eq_true, beq_iff_eq] at hcontra
  exact h r hr (Or.inl hcontra.2)

theorem partnersOf_eq_nil {s : Store} {p : Person}
    (h : ∀ r ∈ s.relationships, ¬touches r p.id) : partnersOf s p = [] := by
  rw [partnersOf, List.filterMap_eq_nil_iff]
  simp only [List.mem_map, List.mem_filter]
  rintro ref ⟨r, ⟨hr, hcond⟩, rfl⟩
  simp only [Bool.and_eq_true, Bool.or_eq_true, beq_iff_eq] at hcond
  exact (h r hr hcond.2).elim

theorem siblingsOf_eq_nil_of_no_parents {s : Store} {p : Person}
    (h : parentsOf s p = []) : siblingsOf s p = [] := by
  rw [siblingsOf, List.filter_eq_nil_iff]
  intro q _
  simp [h]

/-- C9 (confirmed): `filter_relatives` fails with the not-found error
when no person has the anchor id; it never returns a store with an
empty person or relationship list (the two assertions); and on every
store where the anchor exists but participates in no relationship, it
fails the non-empty-relationships assertion. -/
theorem c9_filter_error_behavior :
    (∀ (s : Store) (pid : String) (fuel : Nat),
        findPerson s pid = none →
        filterRelatives fuel s pid = Except.error FilterErr.notFound) ∧
      (∀ (s : Store) (pid : String) (fuel : Nat) (out : Store),
        filterRelatives fuel s pid = Except.ok out →
        out.persons ≠ [] ∧ out.relationships ≠ []) ∧
      (∀ (s : Store) (pid : String) (fuel : Nat) (p : Person),
        1 ≤ fuel → findPerson s pid = some p →
        (∀ r ∈ s.relationships, ¬touches r pid) →
        filterRelatives fuel s pid = Except.error FilterErr.assertRels) := by
  refine ⟨?_, ?_, ?_⟩
  · intro s pid fuel h
    simp only [filterRelatives, h]
  · intro s pid fuel out h
    simp only [filterRelatives] at h
    split at h
    · exact absurd h (by simp)
    · split at h
      · exact absurd h (by simp)
      · split at h
        · exact absurd h (by simp)
        · split at h
          · exact absurd h (by simp)
          · split at h
            · exact absurd h (by simp)
            · rename_i hpers hrels
              injection h with h'
              subst h'
              constructor
              · intro hnil
                exact hpers (List.isEmpty_iff.mpr hnil)
              · intro hnil
                exact hrels (List.isEmpty_iff.mpr hnil)
  · intro s pid fuel p hfuel hfp hno
    have hpid : p.id = pid := findPerson_id hfp
    have hpar : parentsOf s p = [] := by
      rw [parentsOf, hpid, parentIds_eq_nil hno]
      rfl
    have hchi : childrenOf s p = [] := by
      rw [childrenOf, hpid, childIds_eq_nil hno]
      rfl
    have hsib : siblingsOf s p = [] := siblingsOf_eq_nil_of_no_parents hpar
    have hprt : partnersOf s p = [] := partnersOf_eq_nil (hpid ▸ hno)
    have hpersNE : (s.persons.filter (fun q => q ∈ ([p] : List Person))).isEmpty = false := by
      rcases hfil : s.persons.filter (fun q => q ∈ ([p] : List Person)) with _ | ⟨x, xs⟩
      · have hmem : p ∈ s.persons.filter (fun q => q ∈ ([p] : List Person)) :=
          List.mem_filter.mpr ⟨findPerson_mem hfp, by simp⟩
        rw [hfil] at hmem
        simp at hmem
      · rfl
    have hrelsNil : s.relationships.filter
        (fun r => refId r.person1 ∈ (([p] : List Person).map (fun q => q.id)) &&
          refId r.person2 ∈ (([p] : List Person).map (fun q => q.id))) = [] := by
      rw [List.filter_eq_nil_iff]
      intro r hr hcontra
      simp only [Bool.and_eq_true, List.map_cons, List.map_nil,
        List.mem_singleton, decide_eq_true_eq] at hcontra
      exact hno r hr (Or.inl (by rw [hcontra.1, hpid]))
    simp only [filterRelatives, hfp, hsib]
    simp only [stackLoop_single [p] hchi hfuel, stackLoop_single [p] hpar hfuel]
    simp only [List.map_cons, List.map_nil, hprt, List.flatten_cons, List.flatten_nil,
      List.append_nil]
    simp only [hpersNE, hrelsNil]
    simp
    intro r hr h1 _
    exact hno r hr (Or.inl (h1.trans hpid))

/-- Witness for C9: the anchor `a` of `stLoner` exists and has no
relationships, and the call indeed fails the non-empty-relationships
assertion. -/
theorem c9_filter_error_behavior_witness :
    filterRelatives 1 stLoner "a" = Except.error FilterErr.assertRels :=
  c9_filter_error_behavior.2.2 stLoner "a" 1 (mkP "a") (by decide) (by decide)
    (by decide)

/-! ## Claim C4: the traversals on cyclic stores -/

theorem descLoop_cycle_diverges :
    ∀ (fuel : Nat) (rel : List Person),
      stackLoop childrenOf fuel stCycle rel [mkP "a"] = none ∧
        stackLoop childrenOf fuel stCycle rel [mkP "b"] = none := by
  intro fuel
  induction fuel with
  | zero => exact fun rel => ⟨rfl, rfl⟩
  | succ n ih =>
    intro rel
    constructor
    · rw [stackLoop]
      simp only [show ([mkP "a"] : List Person).getLast? = some (mkP "a") from rfl,
        show childrenOf stCycle (mkP "a") = [mkP "b"] from by decide,
        show ([mkP "a"] : List Person).dropLast = [] from rfl, List.nil_append]
      exact (ih (rel ++ [mkP "b"])).2
    · rw [stackLoop]
      simp only [show ([mkP "b"] : List Person).getLast? = some (mkP "b") from rfl,
        show childrenOf stCycle (mkP "b") = [mkP "a"] from by decide,
        show ([mkP "b"] : List Person).dropLast = [] from rfl, List.nil_append]
      exact (ih (rel ++ [mkP "a"])).1

/-- C4, failing input: the claim says both traversals terminate and
visit each person exactly once on every finite store, cycles included.
On the store with the `parentChild` cycle a→b→a, the descendant loop of
`filter_relatives` (which pushes children with no seen-check) never
empties its stack: for every amount of fuel the call is still running,
so the Python original loops forever.  (The generation traversal, by
contrast, is guarded by the stamped fact and does terminate; see the
C1 machinery.) -/
theorem c4_filter_diverges_on_cycle :
    ∀ fuel : Nat, filterRelatives fuel stCycle "a" = Except.error FilterErr.fuelOut := by
  intro fuel
  simp only [filterRelatives, show findPerson stCycle "a" = some (mkP "a") from rfl,
    show siblingsOf stCycle (mkP "a") = [] from by decide]
  rw [(descLoop_cycle_diverges fuel [mkP "a"]).1]

/-! ## Claim C10: the pipeline inlined in `main.py` versus
`add_generations` of `utils.py` -/

theorem stragglerLoop_strict_cases :
    ∀ (ids : List String) (fuel : Nat) (s : Store) (minGen : Int),
      stragglerLoop true fuel ids s minGen = stragglerLoop false fuel ids s minGen ∨
        stragglerLoop true fuel ids s minGen = Except.error GenErr.noPartner := by
  intro ids
  induction ids with
  | nil =>
    intro fuel s minGen
    left
    rfl
  | cons pid rest ih =>
    intro fuel s minGen
    rcases hfp : findPerson s pid with _ | p
    · simp only [stragglerLoop, hfp]
      exact ih fuel s minGen
    · simp only [stragglerLoop, hfp]
      by_cases hg : (findGenFact p).isSome = true
      · rw [if_pos hg, if_pos hg]
        exact ih fuel s minGen
      · rw [if_neg hg, if_neg hg]
        rcases hfc : firstCoupleRel s pid with _ | r
        · simp only [hfc]
          right
          rfl
        · simp only [hfc]
          rcases hpp : findPerson s (refId (partnerRef r pid)) with _ | partner
          · simp only [hpp]
            trivial
          · simp only [hpp]
            rcases hpg : findGenFact partner with _ | f
            · simp only [hpg]
              exact ih fuel s minGen
            · simp only [hpg]
              rcases hv : f.value with _ | v
              · simp only [hv]
                trivial
              · simp only [hv]
                rcases hpi : pyInt v with _ | g
                · simp only [hpi]
                  trivial
                · simp only [hpi]
                  rcases hrec : addGenRec fuel s pid g with _ | ⟨s', ys⟩
                  · simp only [hrec]
                    trivial
                  · simp only [hrec]
                    rcases hm : minL ys with _ | m
                    · simp only [hm]
                      trivial
                    · simp only [hm]
                      exact ih fuel s' _

/-- C10, amended: the inlined pipeline of `main.py` and
`add_generations` of `utils.py` behave identically — same mutations,
same failures — except in exactly one situation: when a person left
unlabeled by the seed traversal participates in no couple
relationship, `utils.py` logs a warning and continues while `main.py`
lets the `StopIteration` escape.  Formally, the `main.py` pipeline
either returns precisely the result of the `utils.py` one or fails
with that error. -/
theorem c10_pipelines_agree_or_fail :
    ∀ (today fuel : Nat) (s : Store),
      mainAddGenerations today fuel s = addGenerations today fuel s ∨
        mainAddGenerations today fuel s = Except.error GenErr.noPartner := by
  intro t f s
  rw [mainAddGenerations, addGenerations]
  rcases hp : s.persons with _ | ⟨p0, rest⟩
  · simp only [addGenerationsCore, hp]
    trivial
  · simp only [addGenerationsCore, hp]
    rcases hrec : addGenRec f s p0.id 0 with _ | ⟨s1, ys⟩
    · simp only [hrec]
      trivial
    · simp only [hrec]
      rcases hm : minL ys with _ | m
      · simp only [hm]
        trivial
      · simp only [hm]
        rcases stragglerLoop_strict_cases ((p0 :: rest).map (fun p => p.id)) f s1 (-m)
          with heq | herr
        · rw [heq]
          left
          rfl
        · rw [herr]
          right
          rfl

/-- C10, counterexample: on the store with persons a, b and no
relationships, b stays unlabeled and has no couple relationship;
`utils.add_generations` completes normally while `main.py`'s pipeline
fails — the two do not behave the same there, contrary to the claim. -/
theorem c10_counterexample :
    (addGenerations 0 9 stNoCouple).toOption.isSome = true ∧
      mainAddGenerations 0 9 stNoCouple = Except.error GenErr.noPartner :=
  ⟨by decide, by decide⟩

/-! ## Lemma library for the Generation Assigner -/

theorem stampP_id (p : Person) (g : Int) : (stampP p g).id = p.id := rfl

theorem stampGen_relationships (s : Store) (pid : String) (g : Int) :
    (stampGen s pid g).relationships = s.relationships := rfl

theorem stampList_map_id :
    ∀ (l : List Person) (pid : String) (g : Int),
      (stampList l pid g).map (fun p => p.id) = l.map (fun p => p.id) := by
  intro l pid g
  induction l with
  | nil => rfl
  | cons p ps ih =>
    rw [stampList]
    by_cases h : (p.id == pid) = true
    · rw [if_pos h]
      rfl
    · rw [if_neg h]
      simp only [List.map_cons, ih]

theorem find?_stampList_self :
    ∀ {l : List Person} {pid : String} {p : Person} (g : Int),
      l.find? (fun q => q.id == pid) = some p →
      (stampList l pid g).find? (fun q => q.id == pid) = some (stampP p g) := by
  intro l
  induction l with
  | nil => intro pid p g h; simp [List.find?] at h
  | cons x xs ih =>
    intro pid p g h
    rw [List.find?_cons] at h
    rw [stampList]
    by_cases hx : (x.id == pid) = true
    · rw [if_pos hx]
      simp only [hx] at h
      injection h with h'
      subst h'
      rw [List.find?_cons]
      simp only [stampP_id, hx]
    · rw [if_neg hx]
      rw [Bool.not_eq_true] at hx
      simp only [hx] at h
      rw [List.find?_cons]
      simp only [hx]
      exact ih g h

theorem find?_stampList_other :
    ∀ {l : List Person} {pid q : String} (g : Int), q ≠ pid →
      (stampList l pid g).find? (fun x => x.id == q) = l.find? (fun x => x.id == q) := by
  intro l
  induction l with
  | nil => intro pid q g _; rfl
  | cons x xs ih =>
    intro pid q g hne
    rw [stampList]
    by_cases hx : (x.id == pid) = true
    · rw [if_pos hx]
      have hxid : x.id = pid := beq_iff_eq.mp hx
      have hxq : (x.id == q) = false :=
        beq_eq_false_iff_ne.mpr (fun hc => hne (hc ▸ hxid))
      rw [List.find?_cons, List.find?_cons]
      simp only [stampP_id, hxq]
    · rw [if_neg hx]
      rw [List.find?_cons, List.find?_cons]
      by_cases hxq : (x.id == q) = true
      · simp only [hxq]
      · rw [Bool.not_eq_true] at hxq
        simp only [hxq]
        exact ih g hne

theorem findPerson_stampGen_self {s : Store} {pid : String} {p : Person} (g : Int)
    (h : findPerson s pid = some p) :
    findPerson (stampGen s pid g) pid = some (stampP p g) :=
  find?_stampList_self g h

theorem findPerson_stampGen_other {s : Store} {pid q : String} (g : Int)
    (hne : q ≠ pid) : findPerson (stampGen s pid g) q = findPerson s q :=
  find?_stampList_other g hne

theorem findPerson_isSome_iff {s : Store} {q : String} :
    (findPerson s q).isSome ↔ q ∈ s.persons.map (fun p => p.id) := by
  rw [findPerson, List.find?_isSome, List.mem_map]
  constructor
  · rintro ⟨x, hx, hq⟩
    exact ⟨x, hx, beq_iff_eq.mp hq⟩
  · rintro ⟨x, hx, hq⟩
    exact ⟨x, hx, beq_iff_eq.mpr hq⟩

theorem parentIds_congr {s s' : Store} (h : s'.relationships = s.relationships)
    (q : String) : parentIds s' q = parentIds s q := by
  rw [parentIds, parentIds, h]

theorem childIds_congr {s s' : Store} (h : s'.relationships = s.relationships)
    (q : String) : childIds s' q = childIds s q := by
  rw [childIds, childIds, h]

theorem connectedPC_congr {s s' : Store} (h : s'.relationships = s.relationships)
    {q : String} (hc : ConnectedPC s' q) : ConnectedPC s q := by
  rw [ConnectedPC, parentIds_congr h, childIds_congr h] at hc
  exact hc

theorem evol_refl (s : Store) : Evol s s :=
  ⟨rfl, rfl, fun _ _ h => h⟩

theorem evol_trans {s1 s2 s3 : Store} (h12 : Evol s1 s2) (h23 : Evol s2 s3) :
    Evol s1 s3 :=
  ⟨h23.1.trans h12.1, h23.2.1.trans h12.2.1,
    fun pid f h => h23.2.2 pid f (h12.2.2 pid f h)⟩

theorem evol_isSome {s s' : Store} (h : Evol s s') {q : String}
    (hq : (findGenFactId s q).isSome) : (findGenFactId s' q).isSome := by
  rcases Option.isSome_iff_exists.mp hq with ⟨f, hf⟩
  rw [h.2.2 q f hf]
  rfl

theorem findGenFactId_stampGen_other {s : Store} {pid q : String} (g : Int)
    (hne : q ≠ pid) : findGenFactId (stampGen s pid g) q = findGenFactId s q := by
  rw [findGenFactId, findGenFactId, findPerson_stampGen_other g hne]

theorem findGenFactId_stampGen_self {s : Store} {pid : String} {p : Person}
    (g : Int) (hfp : findPerson s pid = some p) (hun : findGenFact p = none) :
    findGenFactId (stampGen s pid g) pid = some (genFact g) := by
  rw [findGenFactId, findPerson_stampGen_self g hfp]
  exact genValOf_stampP hun g

theorem evol_stampGen {s : Store} {pid : String} {p : Person} (g : Int)
    (hfp : findPerson s pid = some p) (hun : findGenFact p = none) :
    Evol s (stampGen s pid g) := by
  refine ⟨rfl, stampList_map_id _ _ _, ?_⟩
  intro q f hf
  by_cases hq : q = pid
  · subst hq
    rw [findGenFactId, hfp] at hf
    have hf' : findGenFact p = some f := hf
    rw [hun] at hf'
    cases hf'
  · rw [findGenFactId_stampGen_other g hq]
    exact hf

/-! ### Positional evolution of the person sequence -/

theorem SE_refl (ys : List Int) : ∀ l : List Person, StampEvolve ys l l := by
  intro l
  induction l with
  | nil => exact trivial
  | cons p ps ih => exact ⟨Or.inl rfl, ih⟩

theorem SE_mono {ys ys' : List Int} (hsub : ∀ y ∈ ys, y ∈ ys') :
    ∀ {l l' : List Person}, StampEvolve ys l l' → StampEvolve ys' l l' := by
  intro l
  induction l with
  | nil =>
    intro l' h
    cases l' with
    | nil => exact trivial
    | cons q qs => exact h.elim
  | cons p ps ih =>
    intro l' h
    cases l' with
    | nil => exact h.elim
    | cons q qs =>
      obtain ⟨h1, h2⟩ := h
      refine ⟨?_, ih h2⟩
      rcases h1 with rfl | ⟨hun, g, hg, rfl⟩
      · exact Or.inl rfl
      · exact Or.inr ⟨hun, g, hsub g hg, rfl⟩

theorem SE_trans :
    ∀ {l1 l2 l3 : List Person} {ys1 ys2 : List Int},
      StampEvolve ys1 l1 l2 → StampEvolve ys2 l2 l3 →
      StampEvolve (ys1 ++ ys2) l1 l3 := by
  intro l1
  induction l1 with
  | nil =>
    intro l2 l3 ys1 ys2 h12 h23
    cases l2 with
    | nil =>
      cases l3 with
      | nil => exact trivial
      | cons r rs => exact h23.elim
    | cons q qs => exact h12.elim
  | cons p ps ih =>
    intro l2 l3 ys1 ys2 h12 h23
    cases l2 with
    | nil => exact h12.elim
    | cons q qs =>
      cases l3 with
      | nil => exact h23.elim
      | cons r rs =>
        obtain ⟨h1, hrest12⟩ := h12
        obtain ⟨h2, hrest23⟩ := h23
        refine ⟨?_, ih hrest12 hrest23⟩
        rcases h1 with rfl | ⟨hun, g, hg, rfl⟩
        · rcases h2 with rfl | ⟨hun2, g2, hg2, rfl⟩
          · exact Or.inl rfl
          · exact Or.inr ⟨hun2, g2, List.mem_append_right _ hg2, rfl⟩
        · rcases h2 with rfl | ⟨hun2, g2, hg2, rfl⟩
          · exact Or.inr ⟨hun, g, List.mem_append_left _ hg, rfl⟩
          · exfalso
            rw [genValOf_stampP hun g] at hun2
            cases hun2

theorem SE_stampList :
    ∀ {l : List Person} {pid : String} {p : Person} (g : Int),
      l.find? (fun q => q.id == pid) = some p → findGenFact p = none →
      StampEvolve [g] l (stampList l pid g) := by
  intro l
  induction l with
  | nil => intro pid p g h _; simp [List.find?] at h
  | cons x xs ih =>
    intro pid p g h hun
    rw [List.find?_cons] at h
    rw [stampList]
    by_cases hx : (x.id == pid) = true
    · rw [if_pos hx]
      simp only [hx] at h
      injection h with h'
      subst h'
      exact ⟨Or.inr ⟨hun, g, List.mem_singleton.mpr rfl, rfl⟩, SE_refl _ xs⟩
    · rw [if_neg hx]
      rw [Bool.not_eq_true] at hx
      simp only [hx] at h
      exact ⟨Or.inl rfl, ih g h hun⟩

theorem genValOf_stamped {p : Person} (hun : findGenFact p = none) (g : Int) :
    genValOf (stampP p g) = some g := by
  rw [genValOf, genValOf_stampP hun g]
  exact pyInt_pyStr g

theorem genValOf_of_unlabeled {p : Person} (hun : findGenFact p = none) :
    genValOf p = none := by
  rw [genValOf, hun]
  rfl

theorem valsL_mono :
    ∀ {l l' : List Person} {ys : List Int}, StampEvolve ys l l' →
      ∀ v ∈ valsL l, v ∈ valsL l' := by
  intro l
  induction l with
  | nil =>
    intro l' ys h v hv
    simp [valsL] at hv
  | cons p ps ih =>
    intro l' ys h v hv
    cases l' with
    | nil => exact h.elim
    | cons q qs =>
      obtain ⟨h1, h2⟩ := h
      rw [valsL] at hv
      rw [valsL]
      rcases h1 with rfl | ⟨hun, g, hg, rfl⟩
      · rcases hgv : genValOf q with _ | w
        · rw [List.filterMap_cons_none hgv] at hv
          rw [List.filterMap_cons_none hgv]
          exact ih h2 v hv
        · rw [List.filterMap_cons_some hgv] at hv
          rw [List.filterMap_cons_some hgv]
          rcases List.mem_cons.mp hv with rfl | hv'
          · exact List.mem_cons_self _ _
          · exact List.mem_cons_of_mem _ (ih h2 v hv')
      · rw [List.filterMap_cons_none (genValOf_of_unlabeled hun)] at hv
        rw [List.filterMap_cons_some (genValOf_stamped hun g)]
        exact List.mem_cons_of_mem _ (ih h2 v hv)

theorem valsL_upper :
    ∀ {l l' : List Person} {ys : List Int}, StampEvolve ys l l' →
      ∀ v ∈ valsL l', v ∈ valsL l ∨ v ∈ ys := by
  intro l
  induction l with
  | nil =>
    intro l' ys h v hv
    cases l' with
    | nil => simp [valsL] at hv
    | cons q qs => exact h.elim
  | cons p ps ih =>
    intro l' ys h v hv
    cases l' with
    | nil => exact h.elim
    | cons q qs =>
      obtain ⟨h1, h2⟩ := h
      rw [valsL] at hv
      rw [valsL]
      rcases h1 with rfl | ⟨hun, g, hg, rfl⟩
      · rcases hgv : genValOf q with _ | w
        · rw [List.filterMap_cons_none hgv] at hv
          rw [List.filterMap_cons_none hgv]
          exact ih h2 v hv
        · rw [List.filterMap_cons_some hgv] at hv
          rw [List.filterMap_cons_some hgv]
          rcases List.mem_cons.mp hv with rfl | hv'
          · exact Or.inl (List.mem_cons_self _ _)
          · rcases ih h2 v hv' with hin | hin
            · exact Or.inl (List.mem_cons_of_mem _ hin)
            · exact Or.inr hin
      · rw [List.filterMap_cons_some (genValOf_stamped hun g)] at hv
        rw [List.filterMap_cons_none (genValOf_of_unlabeled hun)]
        rcases List.mem_cons.mp hv with rfl | hv'
        · exact Or.inr hg
        · exact ih h2 v hv'

/-! ### Generic reasoning about the `runMany` loops -/

theorem runMany_ind {step : Store → String → Option (Store × List Int)}
    (P : Store → Store → List Int → Prop) :
    ∀ l : List String,
      (∀ s q s' ys, q ∈ l → step s q = some (s', ys) → P s s' ys) →
      (∀ s, P s s []) →
      (∀ {s1 s2 s3 : Store} {ys1 ys2 : List Int},
        P s1 s2 ys1 → P s2 s3 ys2 → P s1 s3 (ys1 ++ ys2)) →
      ∀ {s s' : Store} {ys : List Int},
        runMany step s l = some (s', ys) → P s s' ys := by
  intro l
  induction l with
  | nil =>
    intro _ hrefl _ s s' ys h
    rw [runMany] at h
    injection h with h'
    injection h' with h1 h2
    subst h1
    subst h2
    exact hrefl s
  | cons q rest ih =>
    intro hstep hrefl htrans s s' ys h
    rw [runMany] at h
    rcases hq : step s q with _ | ⟨s1, ys1⟩
    · simp only [hq] at h
      exact Option.noConfusion h
    · simp only [hq] at h
      rcases hr : runMany step s1 rest with _ | ⟨s2, ys2⟩
      · simp only [hr] at h
        exact Option.noConfusion h
      · simp only [hr] at h
        injection h with h'
        injection h' with h1 h2
        subst h1
        subst h2
        exact htrans (hstep s q s1 ys1 (List.mem_cons_self _ _) hq)
          (ih (fun sa qa sb ysb hm hs => hstep sa qa sb ysb (List.mem_cons_of_mem _ hm) hs)
            hrefl htrans hr)

theorem runMany_post {step : Store → String → Option (Store × List Int)} :
    ∀ l : List String,
      (∀ s q out, q ∈ l → step s q = some out → (findGenFactId out.1 q).isSome) →
      (∀ s q out x, step s q = some out →
        (findGenFactId s x).isSome → (findGenFactId out.1 x).isSome) →
      ∀ {s s' : Store} {ys : List Int},
        runMany step s l = some (s', ys) →
        ∀ q ∈ l, (findGenFactId s' q).isSome := by
  intro l
  induction l with
  | nil =>
    intro _ _ s s' ys h q hq
    simp at hq
  | cons q0 rest ih =>
    intro hpost hpres s s' ys h q hq
    rw [runMany] at h
    rcases hq0 : step s q0 with _ | ⟨s1, ys1⟩
    · simp only [hq0] at h
      exact Option.noConfusion h
    · simp only [hq0] at h
      rcases hr : runMany step s1 rest with _ | ⟨s2, ys2⟩
      · simp only [hr] at h
        exact Option.noConfusion h
      · simp only [hr] at h
        injection h with h'
        injection h' with h1 h2
        subst h1
        rcases List.mem_cons.mp hq with rfl | hmem
        · have h0 : (findGenFactId s1 q).isSome :=
            hpost s q (s1, ys1) (List.mem_cons_self _ _) hq0
          have hpresM := runMany_ind
            (fun sa sb _ => ∀ x, (findGenFactId sa x).isSome → (findGenFactId sb x).isSome)
            rest
            (fun sa qa sb ysb _ hs x hx => hpres sa qa (sb, ysb) x hs hx)
            (fun _ _ hx => hx)
            (fun h12 h23 x hx => h23 x (h12 x hx)) hr
          exact hpresM q h0
        · exact ih
            (fun sa qa out hm hs => hpost sa qa out (List.mem_cons_of_mem _ hm) hs)
            hpres hr q hmem

/-! ### The core facts about `add_generations_recursive` -/

theorem mem_parentIds {s : Store} {q n : String} (h : n ∈ parentIds s q) :
    q ∈ childIds s n := by
  rw [parentIds] at h
  rw [childIds]
  rcases List.mem_map.mp h with ⟨r, hr, hn⟩
  rcases List.mem_filter.mp hr with ⟨hmem, hcond⟩
  simp only [Bool.and_eq_true, beq_iff_eq] at hcond
  refine List.mem_map.mpr ⟨r, List.mem_filter.mpr ⟨hmem, ?_⟩, hcond.2⟩
  simp only [Bool.and_eq_true, beq_iff_eq]
  exact ⟨hcond.1, hn⟩

theorem mem_childIds {s : Store} {q n : String} (h : n ∈ childIds s q) :
    q ∈ parentIds s n := by
  rw [childIds] at h
  rw [parentIds]
  rcases List.mem_map.mp h with ⟨r, hr, hn⟩
  rcases List.mem_filter.mp hr with ⟨hmem, hcond⟩
  simp only [Bool.and_eq_true, beq_iff_eq] at hcond
  refine List.mem_map.mpr ⟨r, List.mem_filter.mpr ⟨hmem, ?_⟩, hcond.2⟩
  simp only [Bool.and_eq_true, beq_iff_eq]
  exact ⟨hcond.1, hn⟩

theorem val_mem_of_findGenFactId {s : Store} {pid : String} {g : Int}
    (h : findGenFactId s pid = some (genFact g)) : g ∈ valsL s.persons := by
  rw [findGenFactId] at h
  rcases hfp : findPerson s pid with _ | p
  · rw [hfp] at h
    cases h
  · rw [hfp] at h
    have hp : findGenFact p = some (genFact g) := h
    refine List.mem_filterMap.mpr ⟨p, findPerson_mem hfp, ?_⟩
    rw [genValOf, hp]
    exact pyInt_pyStr g

theorem addGenRec_main :
    ∀ (fuel : Nat) (s : Store) (pid : String) (gen : Int) (s' : Store) (ys : List Int),
      addGenRec fuel s pid gen = some (s', ys) →
      Evol s s' ∧
        StampEvolve ys s.persons s'.persons ∧
        (∀ y ∈ ys, y ∈ valsL s'.persons) ∧
        (findGenFactId s' pid).isSome ∧
        (∀ q, findGenFactId s q = none → (findGenFactId s' q).isSome →
          q = pid ∨ ConnectedPC s q) ∧
        (∀ q, findGenFactId s q = none → (findGenFactId s' q).isSome →
          ∀ n, n ∈ parentIds s q ∨ n ∈ childIds s q → (findGenFactId s' n).isSome) := by
  intro fuel
  induction fuel with
  | zero =>
    intro s pid gen s' ys h
    rw [addGenRec] at h
    exact Option.noConfusion h
  | succ fuel ih =>
    intro s pid gen s' ys h
    rcases hfp : findPerson s pid with _ | p
    · simp only [addGenRec, hfp] at h
      exact Option.noConfusion h
    · simp only [addGenRec, hfp] at h
      by_cases hg : (findGenFact p).isSome = true
      · rw [if_pos hg] at h
        injection h with h'
        injection h' with h1 h2
        subst h1
        subst h2
        refine ⟨evol_refl s, SE_refl [] _, by simp, ?_, ?_, ?_⟩
        · rw [findGenFactId, hfp]
          exact hg
        · intro q hnone hsome
          rw [hnone] at hsome
          simp at hsome
        · intro q hnone hsome
          rw [hnone] at hsome
          simp at hsome
      · rw [if_neg hg] at h
        have hun : findGenFact p = none := by
          rcases hfg : findGenFact p with _ | f
          · rfl
          · rw [hfg] at hg
            exact absurd rfl hg
        rcases h1 : runMany (fun s'' q => addGenRec fuel s'' q (gen - 1))
            (stampGen s pid gen) (parentIds s pid) with _ | ⟨s2, ys1⟩
        · simp only [h1] at h
          exact Option.noConfusion h
        · simp only [h1] at h
          rcases h2 : runMany (fun s'' q => addGenRec fuel s'' q (gen + 1))
              s2 (childIds s pid) with _ | ⟨s3, ys2⟩
          · simp only [h2] at h
            exact Option.noConfusion h
          · simp only [h2] at h
            injection h with h'
            injection h' with hs hys
            subst hs
            subst hys
            -- segment lemmas
            have e0 : Evol s (stampGen s pid gen) := evol_stampGen gen hfp hun
            have se0 : StampEvolve [gen] s.persons (stampGen s pid gen).persons :=
              SE_stampList gen hfp hun
            have hstamped : findGenFactId (stampGen s pid gen) pid = some (genFact gen) :=
              findGenFactId_stampGen_self gen hfp hun
            have hP1 := runMany_ind
              (fun sa sb ysb =>
                Evol sa sb ∧ StampEvolve ysb sa.persons sb.persons ∧
                  (∀ y ∈ ysb, y ∈ valsL sb.persons) ∧
                  (sa.relationships = s.relationships →
                    ∀ q', findGenFactId sa q' = none → (findGenFactId sb q').isSome →
                      ConnectedPC sa q') ∧
                  (∀ q', findGenFactId sa q' = none → (findGenFactId sb q').isSome →
                    ∀ n, n ∈ parentIds sa q' ∨ n ∈ childIds sa q' →
                      (findGenFactId sb n).isSome))
              (parentIds s pid)
              (by
                intro sa q sb ysb hqmem hstep
                obtain ⟨hE, hSE, hV, hStart, hSC, hNL⟩ := ih sa q (gen - 1) sb ysb hstep
                refine ⟨hE, hSE, hV, ?_, hNL⟩
                intro hrel q' hnone hsome
                rcases hSC q' hnone hsome with rfl | hc
                · have hq : q' ∈ parentIds sa pid := by
                    rw [parentIds_congr hrel]
                    exact hqmem
                  exact Or.inr (List.ne_nil_of_mem (mem_parentIds hq))
                · exact hc)
              (by
                intro sa
                refine ⟨evol_refl sa, SE_refl [] _, by simp, ?_, ?_⟩
                · intro _ q' hnone hsome
                  rw [hnone] at hsome
                  simp at hsome
                · intro q' hnone hsome
                  rw [hnone] at hsome
                  simp at hsome)
              (by
                intro sa sb sc ysa ysb hab hbc
                obtain ⟨hE1, hSE1, hV1, hC1, hNL1⟩ := hab
                obtain ⟨hE2, hSE2, hV2, hC2, hNL2⟩ := hbc
                refine ⟨evol_trans hE1 hE2, SE_trans hSE1 hSE2, ?_, ?_, ?_⟩
                · intro y hy
                  rcases List.mem_append.mp hy with hy1 | hy2
                  · exact valsL_mono hSE2 y (hV1 y hy1)
                  · exact hV2 y hy2
                · intro hrel q' hnone hsome
                  rcases hmid : findGenFactId sb q' with _ | f
                  · have hc := hC2 (hE1.1.trans hrel) q' hmid hsome
                    exact connectedPC_congr hE1.1 hc
                  · exact hC1 hrel q' hnone (by rw [hmid]; rfl)
                · intro q' hnone hsome n hn
                  rcases hmid : findGenFactId sb q' with _ | f
                  · refine hNL2 q' hmid hsome n ?_
                    rw [parentIds_congr hE1.1, childIds_congr hE1.1]
                    exact hn
                  · exact evol_isSome hE2
                      (hNL1 q' hnone (by rw [hmid]; rfl) n hn))
              h1
            have hP2 := runMany_ind
              (fun sa sb ysb =>
                Evol sa sb ∧ StampEvolve ysb sa.persons sb.persons ∧
                  (∀ y ∈ ysb, y ∈ valsL sb.persons) ∧
                  (sa.relationships = s.relationships →
                    ∀ q', findGenFactId sa q' = none → (findGenFactId sb q').isSome →
                      ConnectedPC sa q') ∧
                  (∀ q', findGenFactId sa q' = none → (findGenFactId sb q').isSome →
                    ∀ n, n ∈ parentIds sa q' ∨ n ∈ childIds sa q' →
                      (findGenFactId sb n).isSome))
              (childIds s pid)
              (by
                intro sa q sb ysb hqmem hstep
                obtain ⟨hE, hSE, hV, hStart, hSC, hNL⟩ := ih sa q (gen + 1) sb ysb hstep
                refine ⟨hE, hSE, hV, ?_, hNL⟩
                intro hrel q' hnone hsome
                rcases hSC q' hnone hsome with rfl | hc
                · have hq : q' ∈ childIds sa pid := by
                    rw [childIds_congr hrel]
                    exact hqmem
                  exact Or.inl (List.ne_nil_of_mem (mem_childIds hq))
                · exact hc)
              (by
                intro sa
                refine ⟨evol_refl sa, SE_refl [] _, by simp, ?_, ?_⟩
                · intro _ q' hnone hsome
                  rw [hnone] at hsome
                  simp at hsome
                · intro q' hnone hsome
                  rw [hnone] at hsome
                  simp at hsome)
              (by
                intro sa sb sc ysa ysb hab hbc
                obtain ⟨hE1, hSE1, hV1, hC1, hNL1⟩ := hab
                obtain ⟨hE2, hSE2, hV2, hC2, hNL2⟩ := hbc
                refine ⟨evol_trans hE1 hE2, SE_trans hSE1 hSE2, ?_, ?_, ?_⟩
                · intro y hy
                  rcases List.mem_append.mp hy with hy1 | hy2
                  · exact valsL_mono hSE2 y (hV1 y hy1)
                  · exact hV2 y hy2
                · intro hrel q' hnone hsome
                  rcases hmid : findGenFactId sb q' with _ | f
                  · have hc := hC2 (hE1.1.trans hrel) q' hmid hsome
                    exact connectedPC_congr hE1.1 hc
                  · exact hC1 hrel q' hnone (by rw [hmid]; rfl)
                · intro q' hnone hsome n hn
                  rcases hmid : findGenFactId sb q' with _ | f
                  · refine hNL2 q' hmid hsome n ?_
                    rw [parentIds_congr hE1.1, childIds_congr hE1.1]
                    exact hn
                  · exact evol_isSome hE2
                      (hNL1 q' hnone (by rw [hmid]; rfl) n hn))
              h2
            obtain ⟨e1, se1, v1, c1, nl1⟩ := hP1
            obtain ⟨e2, se2, v2, c2, nl2⟩ := hP2
            have hrel1 : (stampGen s pid gen).relationships = s.relationships := rfl
            have hrel2 : s2.relationships = s.relationships := e1.1
            have hrel3 : s3.relationships = s.relationships := e2.1.trans hrel2
            have hpidfact3 : findGenFactId s3 pid = some (genFact gen) :=
              e2.2.2 pid _ (e1.2.2 pid _ hstamped)
            refine ⟨evol_trans (evol_trans e0 e1) e2, ?_, ?_, ?_, ?_, ?_⟩
            · -- stamped persons
              have hSE : StampEvolve (([gen] ++ ys1) ++ ys2) s.persons s3.persons :=
                SE_trans (SE_trans se0 se1) se2
              refine SE_mono ?_ hSE
              intro y hy
              simp only [List.mem_append, List.mem_singleton] at hy ⊢
              tauto
            · -- yields are stored values
              intro y hy
              simp only [List.mem_append, List.mem_singleton] at hy
              rcases hy with (hy1 | hy2) | rfl
              · exact valsL_mono se2 y (v1 y hy1)
              · exact v2 y hy2
              · exact val_mem_of_findGenFactId hpidfact3
            · rw [hpidfact3]
              rfl
            · -- start or connected
              intro q hnone hsome
              by_cases hq : q = pid
              · exact Or.inl hq
              · have hnone1 : findGenFactId (stampGen s pid gen) q = none := by
                  rw [findGenFactId_stampGen_other gen hq]
                  exact hnone
                rcases hmid : findGenFactId s2 q with _ | f
                · have hc := c2 hrel2 q hmid hsome
                  exact Or.inr (connectedPC_congr hrel2 hc)
                · have hc := c1 hrel1 q hnone1 (by rw [hmid]; rfl)
                  exact Or.inr (connectedPC_congr hrel1 hc)
            · -- neighbors of a newly labeled person end up labeled
              intro q hnone hsome n hn
              by_cases hq : q = pid
              · subst hq
                rcases hn with hpar | hchi
                · have hn2 : (findGenFactId s2 n).isSome := by
                    refine runMany_post (parentIds s q) ?_ ?_ h1 n hpar
                    · intro sa qa out hqmem hstep
                      exact (ih sa qa (gen - 1) out.1 out.2 hstep).2.2.2.1
                    · intro sa qa out x hstep hx
                      exact evol_isSome (ih sa qa (gen - 1) out.1 out.2 hstep).1 hx
                  exact evol_isSome e2 hn2
                · refine runMany_post (childIds s q) ?_ ?_ h2 n hchi
                  · intro sa qa out hqmem hstep
                    exact (ih sa qa (gen + 1) out.1 out.2 hstep).2.2.2.1
                  · intro sa qa out x hstep hx
                    exact evol_isSome (ih sa qa (gen + 1) out.1 out.2 hstep).1 hx
              · have hnone1 : findGenFactId (stampGen s pid gen) q = none := by
                  rw [findGenFactId_stampGen_other gen hq]
                  exact hnone
                rcases hmid : findGenFactId s2 q with _ | f
                · refine nl2 q hmid hsome n ?_
                  rw [parentIds_congr hrel2, childIds_congr hrel2]
                  exact hn
                · refine evol_isSome e2 (nl1 q hnone1 (by rw [hmid]; rfl) n ?_)
                  rw [parentIds_congr hrel1, childIds_congr hrel1]
                  exact hn

theorem addGenRec_evol {fuel : Nat} {s : Store} {pid : String} {gen : Int}
    {s' : Store} {ys : List Int} (h : addGenRec fuel s pid gen = some (s', ys)) :
    Evol s s' :=
  (addGenRec_main fuel s pid gen s' ys h).1

theorem addGenRec_start_unlabeled {fuel : Nat} {s : Store} {pid : String}
    {gen : Int} {s' : Store} {ys : List Int} {p : Person}
    (hfp : findPerson s pid = some p) (hun : findGenFact p = none)
    (h : addGenRec fuel s pid gen = some (s', ys)) :
    findGenFactId s' pid = some (genFact gen) ∧ gen ∈ ys := by
  rcases fuel with _ | fuel
  · rw [addGenRec] at h
    exact Option.noConfusion h
  · simp only [addGenRec, hfp] at h
    rw [if_neg (by rw [hun]; simp)] at h
    rcases h1 : runMany (fun s'' q => addGenRec fuel s'' q (gen - 1))
        (stampGen s pid gen) (parentIds s pid) with _ | ⟨s2, ys1⟩
    · simp only [h1] at h
      exact Option.noConfusion h
    · simp only [h1] at h
      rcases h2 : runMany (fun s'' q => addGenRec fuel s'' q (gen + 1))
          s2 (childIds s pid) with _ | ⟨s3, ys2⟩
      · simp only [h2] at h
        exact Option.noConfusion h
      · simp only [h2] at h
        injection h with h'
        injection h' with hs hys
        subst hs
        subst hys
        have hstamped : findGenFactId (stampGen s pid gen) pid = some (genFact gen) :=
          findGenFactId_stampGen_self gen hfp hun
        have e1 := runMany_ind (fun sa sb _ => Evol sa sb) (parentIds s pid)
          (fun sa qa sb ysb _ hs => addGenRec_evol hs) evol_refl
          (fun hab hbc => evol_trans hab hbc) h1
        have e2 := runMany_ind (fun sa sb _ => Evol sa sb) (childIds s pid)
          (fun sa qa sb ysb _ hs => addGenRec_evol hs) evol_refl
          (fun hab hbc => evol_trans hab hbc) h2
        refine ⟨e2.2.2 pid _ (e1.2.2 pid _ hstamped), ?_⟩
        simp

theorem addGenRec_ok_of_labeled {fuel : Nat} {s : Store} {pid : String}
    {gen : Int} {p : Person} (hfp : findPerson s pid = some p)
    (hl : (findGenFact p).isSome = true) :
    ∀ {fuel' : Nat}, fuel = fuel' + 1 → addGenRec fuel s pid gen = some (s, []) := by
  intro fuel' hf
  subst hf
  simp only [addGenRec, hfp, if_pos hl]

theorem findPerson_head {s : Store} {p : Person} {rest : List Person}
    (h : s.persons = p :: rest) : findPerson s p.id = some p := by
  rw [findPerson, h, List.find?_cons]
  simp

/-! ### The straggler-reconnection loop -/

theorem stragglerLoop_main :
    ∀ (ids : List String) (strict : Bool) (fuel : Nat) (s : Store) (m : Int)
      (s' : Store) (m' : Int),
      stragglerLoop strict fuel ids s m = Except.ok (s', m') →
      Evol s s' ∧ m ≤ m' ∧ (∃ zs, StampEvolve zs s.persons s'.persons) ∧
        ((∀ v ∈ valsL s.persons, -m ≤ v) → (∃ v ∈ valsL s.persons, v = -m) →
          (∀ v ∈ valsL s'.persons, -m' ≤ v) ∧ ∃ v ∈ valsL s'.persons, v = -m') := by
  intro ids
  induction ids with
  | nil =>
    intro strict fuel s m s' m' h
    rw [stragglerLoop] at h
    injection h with h'
    injection h' with h1 h2
    subst h1
    subst h2
    exact ⟨evol_refl s, le_refl m, ⟨[], SE_refl [] _⟩, fun hb ha => ⟨hb, ha⟩⟩
  | cons pid rest ih =>
    intro strict fuel s m s' m' h
    rcases hfp : findPerson s pid with _ | p
    · simp only [stragglerLoop, hfp] at h
      exact ih strict fuel s m s' m' h
    · simp only [stragglerLoop, hfp] at h
      by_cases hg : (findGenFact p).isSome = true
      · rw [if_pos hg] at h
        exact ih strict fuel s m s' m' h
      · rw [if_neg hg] at h
        rcases hfc : firstCoupleRel s pid with _ | r
        · simp only [hfc] at h
          rcases strict with _ | _
          · exact ih false fuel s m s' m' h
          · exact Except.noConfusion h
        · simp only [hfc] at h
          rcases hpp : findPerson s (refId (partnerRef r pid)) with _ | partner
          · simp only [hpp] at h
            exact Except.noConfusion h
          · simp only [hpp] at h
            rcases hpg : findGenFact partner with _ | f
            · simp only [hpg] at h
              exact ih strict fuel s m s' m' h
            · simp only [hpg] at h
              rcases hv : f.value with _ | v
              · simp only [hv] at h
                exact Except.noConfusion h
              · simp only [hv] at h
                rcases hpi : pyInt v with _ | g
                · simp only [hpi] at h
                  exact Except.noConfusion h
                · simp only [hpi] at h
                  rcases hrec : addGenRec fuel s pid g with _ | ⟨s1, ys⟩
                  · simp only [hrec] at h
                    exact Except.noConfusion h
                  · simp only [hrec] at h
                    rcases hm : minL ys with _ | mn
                    · simp only [hm] at h
                      exact Except.noConfusion h
                    · simp only [hm] at h
                      obtain ⟨hE, hSE, hV, _, _, _⟩ :=
                        addGenRec_main fuel s pid g s1 ys hrec
                      obtain ⟨hE', hle', hSE', hInv'⟩ :=
                        ih strict fuel s1 _ s' m' h
                      have hm2 : m ≤ (if -mn > m then -mn else m) := by
                        split <;> omega
                      refine ⟨evol_trans hE hE', le_trans hm2 hle', ?_, ?_⟩
                      · obtain ⟨zs', hzs'⟩ := hSE'
                        exact ⟨ys ++ zs', SE_trans hSE hzs'⟩
                      · intro hb ha
                        refine hInv' ?_ ?_
                        · intro w hw
                          rcases valsL_upper hSE w hw with hold | hys
                          · have := hb w hold
                            split <;> omega
                          · have := minL_le hm w hys
                            split <;> omega
                        · by_cases hcond : -mn > m
                          · refine ⟨mn, hV mn (minL_mem hm), ?_⟩
                            rw [if_pos hcond]
                            omega
                          · obtain ⟨w, hwmem, hweq⟩ := ha
                            refine ⟨w, valsL_mono hSE w hwmem, ?_⟩
                            rw [if_neg hcond]
                            exact hweq

/-! ### The normalization pass -/

theorem find?_setGenValueFacts :
    ∀ {fs : List Fact} {f : Fact} (v : String),
      fs.find? (fun x => x.ftype == FactType.generationNumber) = some f →
      (setGenValueFacts fs v).find? (fun x => x.ftype == FactType.generationNumber) =
        some { f with value := some v } := by
  intro fs
  induction fs with
  | nil => intro f v h; simp [List.find?] at h
  | cons x xs ih =>
    intro f v h
    rw [List.find?_cons] at h
    rw [setGenValueFacts]
    by_cases hx : (x.ftype == FactType.generationNumber) = true
    · rw [if_pos hx]
      simp only [hx] at h
      injection h with h'
      subst h'
      rw [List.find?_cons]
      simp [hx]
    · rw [if_neg hx]
      rw [Bool.not_eq_true] at hx
      simp only [hx] at h
      rw [List.find?_cons]
      simp only [hx]
      exact ih v h

theorem genCount_setGenValueFacts :
    ∀ (fs : List Fact) (v : String),
      ((setGenValueFacts fs v).filter
          (fun x => x.ftype == FactType.generationNumber)).length =
        (fs.filter (fun x => x.ftype == FactType.generationNumber)).length := by
  intro fs
  induction fs with
  | nil => intro v; rfl
  | cons x xs ih =>
    intro v
    rw [setGenValueFacts]
    by_cases hx : (x.ftype == FactType.generationNumber) = true
    · rw [if_pos hx]
      rw [List.filter_cons, List.filter_cons]
      simp only [hx]
      simp
    · rw [if_neg hx]
      rw [Bool.not_eq_true] at hx
      rw [List.filter_cons, List.filter_cons]
      simp only [hx]
      exact ih v

theorem normalizePerson_unlabeled {mg aS : Int} {p : Person}
    (hun : findGenFact p = none) : normalizePerson mg aS p = Except.ok p := by
  rw [normalizePerson, hun]

theorem normalizePerson_labeled {mg aS : Int} {p : Person} {f : Fact}
    {v : String} {g : Int} (hf : findGenFact p = some f) (hv : f.value = some v)
    (hg : pyInt v = some g) :
    ∃ p', normalizePerson mg aS p = Except.ok p' ∧ p'.id = p.id ∧
      findGenFact p' = some { f with value := some (pyStr (g + mg)) } ∧
      (p'.facts.filter (fun x => x.ftype == FactType.generationNumber)).length =
        (p.facts.filter (fun x => x.ftype == FactType.generationNumber)).length := by
  simp only [normalizePerson, hf, hv, hg]
  have hval : findGenFact (setGenValue p (pyStr (g + mg))) =
      some { f with value := some (pyStr (g + mg)) } :=
    find?_setGenValueFacts _ hf
  split
  · refine ⟨_, rfl, rfl, ?_, ?_⟩
    · show (List.find? _ (setGenValueFacts p.facts _ ++ [deathFact])) = _
      rw [List.find?_append]
      rw [findGenFact] at hval
      rw [setGenValue] at hval
      rw [hval]
      rfl
    · show (List.filter _ (setGenValueFacts p.facts _ ++ [deathFact])).length = _
      rw [List.filter_append]
      rw [show List.filter (fun x => x.ftype == FactType.generationNumber) [deathFact]
        = [] from rfl]
      rw [List.append_nil]
      exact genCount_setGenValueFacts p.facts _
  · exact ⟨_, rfl, rfl, hval, genCount_setGenValueFacts p.facts _⟩

theorem normalizePerson_ok_id {mg aS : Int} {p p' : Person}
    (h : normalizePerson mg aS p = Except.ok p') : p'.id = p.id := by
  rcases hf : findGenFact p with _ | f
  · rw [normalizePerson_unlabeled hf] at h
    injection h with h'
    subst h'
    rfl
  · rcases hv : f.value with _ | v
    · simp only [normalizePerson, hf, hv] at h
      exact Except.noConfusion h
    · rcases hg : pyInt v with _ | g
      · simp only [normalizePerson, hf, hv, hg] at h
        exact Except.noConfusion h
      · obtain ⟨p'', hok, hid, _, _⟩ := @normalizePerson_labeled mg aS _ _ _ _ hf hv hg
        rw [hok] at h
        injection h with h'
        subst h'
        exact hid

theorem normList_forall₂ :
    ∀ {mg aS : Int} {ps ps' : List Person}, normList mg aS ps = Except.ok ps' →
      List.Forall₂ (fun p p' => normalizePerson mg aS p = Except.ok p') ps ps' := by
  intro mg aS ps
  induction ps with
  | nil =>
    intro ps' h
    rw [normList] at h
    injection h with h'
    subst h'
    exact List.Forall₂.nil
  | cons p ps ih =>
    intro ps' h
    rw [normList] at h
    rcases hn : normalizePerson mg aS p with e | p1
    · simp only [hn] at h
      exact Except.noConfusion h
    · simp only [hn] at h
      rcases hr : normList mg aS ps with e | ps1
      · simp only [hr] at h
        exact Except.noConfusion h
      · simp only [hr] at h
        injection h with h'
        subst h'
        exact List.Forall₂.cons hn (ih hr)

theorem forall₂_map_id {R : Person → Person → Prop}
    (hid : ∀ p p', R p p' → p'.id = p.id) :
    ∀ {l l' : List Person}, List.Forall₂ R l l' →
      l'.map (fun p => p.id) = l.map (fun p => p.id) := by
  intro l l' h
  induction h with
  | nil => rfl
  | cons hR _ ih =>
    simp only [List.map_cons, ih, hid _ _ hR]

theorem find?_forall₂ {R : Person → Person → Prop}
    (hid : ∀ p p', R p p' → p'.id = p.id) :
    ∀ {l l' : List Person}, List.Forall₂ R l l' → ∀ q : String,
      (l.find? (fun p => p.id == q) = none ∧ l'.find? (fun p => p.id == q) = none) ∨
        ∃ p p', R p p' ∧ l.find? (fun x => x.id == q) = some p ∧
          l'.find? (fun x => x.id == q) = some p' := by
  intro l l' h
  induction h with
  | nil => intro q; exact Or.inl ⟨rfl, rfl⟩
  | @cons a b as bs hR hrest ih =>
    intro q
    rw [List.find?_cons, List.find?_cons]
    by_cases hq : (a.id == q) = true
    · rw [hq]
      rw [show (b.id == q) = true from by
        rw [beq_iff_eq] at hq ⊢; rw [hid _ _ hR, hq]]
      exact Or.inr ⟨a, b, hR, rfl, rfl⟩
    · rw [Bool.not_eq_true] at hq
      rw [hq]
      rw [show (b.id == q) = false from by
        rw [beq_eq_false_iff_ne] at hq ⊢; rw [hid _ _ hR]; exact hq]
      exact ih q

theorem valsL_normList :
    ∀ {mg aS : Int} {ps ps' : List Person}, normList mg aS ps = Except.ok ps' →
      (∀ w ∈ valsL ps', ∃ vv ∈ valsL ps, w = vv + mg) ∧
        ∀ v ∈ valsL ps, v + mg ∈ valsL ps' := by
  intro mg aS ps
  induction ps with
  | nil =>
    intro ps' h
    rw [normList] at h
    injection h with h'
    subst h'
    constructor
    · intro w hw
      simp [valsL] at hw
    · intro v hv
      simp [valsL] at hv
  | cons p ps ih =>
    intro ps' h
    rw [normList] at h
    rcases hn : normalizePerson mg aS p with e | p1
    · simp only [hn] at h
      exact Except.noConfusion h
    · simp only [hn] at h
      rcases hr : normList mg aS ps with e | ps1
      · simp only [hr] at h
        exact Except.noConfusion h
      · simp only [hr] at h
        injection h with h'
        subst h'
        obtain ⟨ih1, ih2⟩ := ih hr
        rcases hf : findGenFact p with _ | f
        · obtain rfl : p = p1 := by
            rw [normalizePerson_unlabeled hf] at hn
            exact Except.ok.inj hn
          have hnone : genValOf p = none := genValOf_of_unlabeled hf
          constructor
          · intro w hw
            rw [valsL, List.filterMap_cons_none hnone] at hw
            obtain ⟨vv, hvv, hweq⟩ := ih1 w hw
            exact ⟨vv, by rw [valsL, List.filterMap_cons_none hnone]; exact hvv, hweq⟩
          · intro v hv
            rw [valsL, List.filterMap_cons_none hnone] at hv
            rw [valsL, List.filterMap_cons_none hnone]
            exact ih2 v hv
        · rcases hv : f.value with _ | v0
          · simp only [normalizePerson, hf, hv] at hn
            exact Except.noConfusion hn
          · rcases hg : pyInt v0 with _ | g
            · simp only [normalizePerson, hf, hv, hg] at hn
              exact Except.noConfusion hn
            · obtain ⟨p'', hok, _, hfact, _⟩ :=
                @normalizePerson_labeled mg aS _ _ _ _ hf hv hg
              have heq : p'' = p1 := by
                rw [hok] at hn
                exact Except.ok.inj hn
              rw [heq] at hfact
              have hgp : genValOf p = some g := by
                rw [genValOf, hf]
                show f.value.bind pyInt = some g
                rw [hv]
                exact hg
              have hgp1 : genValOf p1 = some (g + mg) := by
                rw [genValOf, hfact]
                exact pyInt_pyStr (g + mg)
              constructor
              · intro w hw
                rw [valsL, List.filterMap_cons_some hgp1] at hw
                rcases List.mem_cons.mp hw with rfl | hw'
                · exact ⟨g, by rw [valsL, List.filterMap_cons_some hgp]; simp, rfl⟩
                · obtain ⟨vv, hvv, hweq⟩ := ih1 w hw'
                  exact ⟨vv, by
                    rw [valsL, List.filterMap_cons_some hgp]
                    exact List.mem_cons_of_mem _ hvv, hweq⟩
              · intro v hvmem
                rw [valsL, List.filterMap_cons_some hgp] at hvmem
                rw [valsL, List.filterMap_cons_some hgp1]
                rcases List.mem_cons.mp hvmem with rfl | hv'
                · exact List.mem_cons_self _ _
                · exact List.mem_cons_of_mem _ (ih2 v hv')

/-! ## Claim C3: `add_generations` is not idempotent -/

/-- C3, counterexample: the claim says a second call on the store
produced by a first call completes normally with unchanged values.  On
the chain a→b→c the first call succeeds, but the second call fails:
the seed person is already labeled, so the seed traversal yields
nothing and Python's `min()` raises `ValueError` on the empty
sequence. -/
theorem c3_counterexample :
    (addGenerations 0 9 stChain).toOption.isSome = true ∧
      (addGenerations 0 9 stChain).bind (addGenerations 0 9) =
        Except.error GenErr.emptyMin :=
  ⟨by decide, by decide⟩

/-- C3, amended: a second call of `add_generations` on the store
produced by any successful first call never completes: it always fails
with the empty-`min` `ValueError` (raised at line 63 of
`src/utils.py`, before any store mutation, so no person is re-stamped
and all generation values are left as the first call wrote them). -/
theorem c3_second_call_fails {today fuel : Nat} {s s' : Store}
    (h : addGenerations today fuel s = Except.ok s') :
    addGenerations today fuel s' = Except.error GenErr.emptyMin := by
  rw [addGenerations] at h
  rcases hp : s.persons with _ | ⟨p0, rest⟩
  · simp only [addGenerationsCore, hp] at h
    exact Except.noConfusion h
  · simp only [addGenerationsCore, hp] at h
    rcases hrec : addGenRec fuel s p0.id 0 with _ | ⟨s1, ys0⟩
    · simp only [hrec] at h
      exact Except.noConfusion h
    · simp only [hrec] at h
      rcases hm : minL ys0 with _ | m0
      · simp only [hm] at h
        exact Except.noConfusion h
      · simp only [hm] at h
        rcases hsl : stragglerLoop false fuel ((p0 :: rest).map (fun p => p.id))
            s1 (-m0) with e | ⟨s2, mg⟩
        · simp only [hsl] at h
          exact Except.noConfusion h
        · simp only [hsl] at h
          rcases hnl : normList mg (ageStartOf today s2) s2.persons with e | ps'
          · simp only [hnl] at h
            exact Except.noConfusion h
          · simp only [hnl] at h
            injection h with h'
            subst h'
            have hfp0 : findPerson s p0.id = some p0 := findPerson_head hp
            have hun0 : findGenFact p0 = none := by
              rcases hl : findGenFact p0 with _ | f
              · rfl
              · rcases fuel with _ | fuel'
                · rw [addGenRec] at hrec
                  exact Option.noConfusion hrec
                · rw [addGenRec_ok_of_labeled hfp0 (by rw [hl]; rfl) rfl] at hrec
                  injection hrec with hrec'
                  injection hrec' with hs hys
                  rw [← hys] at hm
                  rw [minL] at hm
                  exact Option.noConfusion hm
            obtain ⟨hlab1, _⟩ := addGenRec_start_unlabeled hfp0 hun0 hrec
            obtain ⟨hE, _, _, _⟩ := stragglerLoop_main _ false fuel s1 (-m0) s2 mg hsl
            have hlab2 : findGenFactId s2 p0.id = some (genFact 0) :=
              hE.2.2 _ _ hlab1
            have hids : s2.persons.map (fun p => p.id) =
                (p0 :: rest).map (fun p => p.id) := by
              have e1 := (addGenRec_evol hrec).2.1
              rw [hE.2.1, e1, hp]
            rcases hs2 : s2.persons with _ | ⟨pX, rest2⟩
            · rw [hs2] at hids
              simp at hids
            · have hXid : pX.id = p0.id := by
                rw [hs2] at hids
                simp only [List.map_cons] at hids
                injection hids with h1 _
              have hfpX : findPerson s2 p0.id = some pX := by
                rw [← hXid]
                exact findPerson_head hs2
              have hfactX : findGenFact pX = some (genFact 0) := by
                rw [findGenFactId, hfpX] at hlab2
                exact hlab2
              rw [hs2] at hnl
              rw [normList] at hnl
              rcases hnp : normalizePerson mg (ageStartOf today s2) pX with e | pY
              · simp only [hnp] at hnl
                exact Except.noConfusion hnl
              · simp only [hnp] at hnl
                rcases hnr : normList mg (ageStartOf today s2) rest2 with e | rest'
                · simp only [hnr] at hnl
                  exact Except.noConfusion hnl
                · simp only [hnr] at hnl
                  injection hnl with hnl'
                  subst hnl'
                  obtain ⟨pY', hok, _, hfactY, _⟩ := @normalizePerson_labeled
                    mg (ageStartOf today s2) _ _ _ _ hfactX rfl (pyInt_pyStr 0)
                  have heqY : pY' = pY := by
                    rw [hok] at hnp
                    exact Except.ok.inj hnp
                  rw [heqY] at hfactY
                  rcases fuel with _ | f'
                  · rw [addGenRec] at hrec
                    exact Option.noConfusion hrec
                  · rw [addGenerations]
                    have hfind : findPerson { s2 with persons := pY :: rest' } pY.id =
                        some pY :=
                      findPerson_head rfl
                    have hrec2 : addGenRec (f' + 1) { s2 with persons := pY :: rest' }
                        pY.id 0 = some ({ s2 with persons := pY :: rest' }, []) :=
                      addGenRec_ok_of_labeled hfind (by rw [hfactY]; rfl) rfl
                    simp only [addGenerationsCore, hrec2]
                    rfl

/-- Witness for the amended C3: the first call on the chain produces
`stChainLabeled`, and the second call fails with the empty-`min`
error. -/
theorem c3_second_call_fails_witness :
    addGenerations 0 9 stChainLabeled = Except.error GenErr.emptyMin :=
  c3_second_call_fails (by decide : addGenerations 0 9 stChain = Except.ok stChainLabeled)

/-! ### Auxiliary facts for the fully-unlabeled analysis -/

theorem allUnlabeled_findGenFactId {s : Store} (hAll : AllUnlabeled s)
    (x : String) : findGenFactId s x = none := by
  rw [findGenFactId]
  rcases hfp : findPerson s x with _ | p
  · rfl
  · rw [Option.bind]
    exact hAll p (findPerson_mem hfp)

theorem pcAdj_mem {s : Store} {b c : String} (h : pcAdj s b c) :
    c ∈ parentIds s b ∨ c ∈ childIds s b := by
  obtain ⟨r, hr, htype, hcase⟩ := h
  rcases hcase with ⟨h1, h2⟩ | ⟨h1, h2⟩
  · right
    rw [childIds]
    refine List.mem_map.mpr ⟨r, List.mem_filter.mpr ⟨hr, ?_⟩, h2⟩
    simp only [Bool.and_eq_true, beq_iff_eq]
    exact ⟨htype, h1⟩
  · left
    rw [parentIds]
    refine List.mem_map.mpr ⟨r, List.mem_filter.mpr ⟨hr, ?_⟩, h1⟩
    simp only [Bool.and_eq_true, beq_iff_eq]
    exact ⟨htype, h2⟩

theorem valsL_eq_nil_of_unlabeled {l : List Person}
    (h : ∀ p ∈ l, findGenFact p = none) : valsL l = [] := by
  rw [valsL, List.filterMap_eq_nil_iff]
  intro p hp
  exact genValOf_of_unlabeled (h p hp)

theorem SE_mem :
    ∀ {l l' : List Person} {ys : List Int}, StampEvolve ys l l' →
      ∀ q ∈ l', ∃ p ∈ l, q = p ∨ (findGenFact p = none ∧ ∃ g, q = stampP p g) := by
  intro l
  induction l with
  | nil =>
    intro l' ys h q hq
    cases l' with
    | nil => simp at hq
    | cons a as => exact h.elim
  | cons p ps ih =>
    intro l' ys h q hq
    cases l' with
    | nil => exact h.elim
    | cons a as =>
      obtain ⟨h1, h2⟩ := h
      rcases List.mem_cons.mp hq with rfl | hq'
      · refine ⟨p, List.mem_cons_self _ _, ?_⟩
        rcases h1 with rfl | ⟨hun, g, _, rfl⟩
        · exact Or.inl rfl
        · exact Or.inr ⟨hun, g, rfl⟩
      · obtain ⟨p0, hp0, hcase⟩ := ih h2 q hq'
        exact ⟨p0, List.mem_cons_of_mem _ hp0, hcase⟩

theorem forall₂_mem_right {α β : Type u} {R : α → β → Prop} :
    ∀ {l : List α} {l' : List β}, List.Forall₂ R l l' →
      ∀ b ∈ l', ∃ a ∈ l, R a b := by
  intro l l' h
  induction h with
  | nil => intro b hb; simp at hb
  | @cons x y xs ys hR _ ih =>
    intro b hb
    rcases List.mem_cons.mp hb with rfl | hb'
    · exact ⟨x, List.mem_cons_self _ _, hR⟩
    · obtain ⟨a, ha, hab⟩ := ih b hb'
      exact ⟨a, List.mem_cons_of_mem _ ha, hab⟩

theorem genFacts_nil_of_none {p : Person} (h : findGenFact p = none) :
    p.facts.filter (fun x => x.ftype == FactType.generationNumber) = [] := by
  rw [List.filter_eq_nil_iff]
  rw [findGenFact, List.find?_eq_none] at h
  exact h

theorem genCount_stampP {p : Person} (h : findGenFact p = none) (g : Int) :
    ((stampP p g).facts.filter
        (fun x => x.ftype == FactType.generationNumber)).length = 1 := by
  show ((p.facts ++ [genFact g]).filter
      (fun x => x.ftype == FactType.generationNumber)).length = 1
  rw [List.filter_append, genFacts_nil_of_none h]
  rfl

theorem normalizePerson_ok_labeled_inv {mg aS : Int} {p p' : Person} {f : Fact}
    (hf : findGenFact p = some f) (h : normalizePerson mg aS p = Except.ok p') :
    ∃ v g, f.value = some v ∧ pyInt v = some g ∧ p'.id = p.id ∧
      findGenFact p' = some { f with value := some (pyStr (g + mg)) } ∧
      (p'.facts.filter (fun x => x.ftype == FactType.generationNumber)).length =
        (p.facts.filter (fun x => x.ftype == FactType.generationNumber)).length := by
  rcases hv : f.value with _ | v
  · simp only [normalizePerson, hf, hv] at h
    exact Except.noConfusion h
  · rcases hg : pyInt v with _ | g
    · simp only [normalizePerson, hf, hv, hg] at h
      exact Except.noConfusion h
    · obtain ⟨p'', hok, hid, hfact, hcount⟩ :=
        @normalizePerson_labeled mg aS _ _ _ _ hf hv hg
      have heq : p'' = p' := by
        rw [hok] at h
        exact Except.ok.inj h
      rw [heq] at hid hfact hcount
      exact ⟨v, g, rfl, hg, hid, hfact, hcount⟩

theorem seed_reach {fuel : Nat} {s : Store} {pid : String} {gen : Int}
    {s' : Store} {ys : List Int} (hAll : AllUnlabeled s)
    (h : addGenRec fuel s pid gen = some (s', ys)) :
    ∀ q, ReachPC s pid q → (findGenFactId s' q).isSome := by
  intro q hreach
  induction hreach with
  | refl => exact (addGenRec_main fuel s pid gen s' ys h).2.2.2.1
  | @tail b c hab hadj ih =>
    exact (addGenRec_main fuel s pid gen s' ys h).2.2.2.2.2 b
      (allUnlabeled_findGenFactId hAll b) ih c (pcAdj_mem hadj)

/-- Everything a successful `add_generations` run guarantees on a store
with no pre-existing generation facts. -/
theorem addGenerations_unlabeled_analysis {today fuel : Nat} {s s' : Store}
    (hAll : AllUnlabeled s) (h : addGenerations today fuel s = Except.ok s') :
    (∀ v ∈ labeledVals s', 0 ≤ v) ∧ (∃ v ∈ labeledVals s', v = 0) ∧
      (∀ p' ∈ s'.persons, (findGenFact p').isSome = true →
        (p'.facts.filter (fun x => x.ftype == FactType.generationNumber)).length = 1 ∧
          ∃ g, genValOf p' = some g) ∧
      (∀ p0 rest, s.persons = p0 :: rest →
        ∀ q, ReachPC s p0.id q → (findGenFactId s' q).isSome) := by
  rw [addGenerations] at h
  rcases hp : s.persons with _ | ⟨p0, rest⟩
  · simp only [addGenerationsCore, hp] at h
    exact Except.noConfusion h
  · simp only [addGenerationsCore, hp] at h
    rcases hrec : addGenRec fuel s p0.id 0 with _ | ⟨s1, ys0⟩
    · simp only [hrec] at h
      exact Except.noConfusion h
    · simp only [hrec] at h
      rcases hm : minL ys0 with _ | m0
      · simp only [hm] at h
        exact Except.noConfusion h
      · simp only [hm] at h
        rcases hsl : stragglerLoop false fuel ((p0 :: rest).map (fun p => p.id))
            s1 (-m0) with e | ⟨s2, mg⟩
        · simp only [hsl] at h
          exact Except.noConfusion h
        · simp only [hsl] at h
          rcases hnl : normList mg (ageStartOf today s2) s2.persons with e | ps'
          · simp only [hnl] at h
            exact Except.noConfusion h
          · simp only [hnl] at h
            injection h with h'
            subst h'
            obtain ⟨hE1, hSE1, hV1, _, _, _⟩ := addGenRec_main fuel s p0.id 0 s1 ys0 hrec
            obtain ⟨hE2, hle2, ⟨zs, hSE2⟩, hInv⟩ :=
              stragglerLoop_main _ false fuel s1 (-m0) s2 mg hsl
            have hvalsS : valsL s.persons = [] := valsL_eq_nil_of_unlabeled hAll
            have hb1 : ∀ v ∈ valsL s1.persons, -(-m0) ≤ v := by
              intro v hv
              rcases valsL_upper hSE1 v hv with hold | hys
              · rw [hvalsS] at hold
                simp at hold
              · have := minL_le hm v hys
                omega
            have ha1 : ∃ v ∈ valsL s1.persons, v = -(-m0) :=
              ⟨m0, hV1 m0 (minL_mem hm), by omega⟩
            obtain ⟨hb2, ha2⟩ := hInv hb1 ha1
            obtain ⟨hup, hdown⟩ := valsL_normList hnl
            refine ⟨?_, ?_, ?_, ?_⟩
            · intro v hv
              obtain ⟨vv, hvv, rfl⟩ := hup v hv
              have := hb2 vv hvv
              omega
            · obtain ⟨v, hvmem, hveq⟩ := ha2
              refine ⟨v + mg, hdown v hvmem, by omega⟩
            · intro p' hp' hlab
              have hF := normList_forall₂ hnl
              obtain ⟨p2, hp2mem, hok⟩ := forall₂_mem_right hF p' hp'
              rcases hf2 : findGenFact p2 with _ | f
              · rw [normalizePerson_unlabeled hf2] at hok
                have hpe : p2 = p' := Except.ok.inj hok
                rw [← hpe, hf2] at hlab
                simp at hlab
              · obtain ⟨v, g, hv, hg, hid, hfact, hcount⟩ :=
                  normalizePerson_ok_labeled_inv hf2 hok
                have hSE12 : StampEvolve (ys0 ++ zs) s.persons s2.persons :=
                  SE_trans hSE1 hSE2
                obtain ⟨pOrig, hpO, hcase⟩ := SE_mem hSE12 p2 hp2mem
                rcases hcase with rfl | ⟨hunO, g0, rfl⟩
                · rw [hAll p2 hpO] at hf2
                  exact Option.noConfusion hf2
                · constructor
                  · rw [hcount]
                    exact genCount_stampP hunO g0
                  · refine ⟨g + mg, ?_⟩
                    rw [genValOf, hfact]
                    exact pyInt_pyStr (g + mg)
            · intro p0' rest' hp' q hreach
              injection hp' with he1 he2
              rw [← he1] at hreach
              have hq1 : (findGenFactId s1 q).isSome := seed_reach hAll hrec q hreach
              have hq2 : (findGenFactId s2 q).isSome := evol_isSome hE2 hq1
              rw [findGenFactId] at hq2
              rcases find?_forall₂ (fun a b hr => normalizePerson_ok_id hr)
                  (normList_forall₂ hnl) q with ⟨hn1, hn2⟩ | ⟨pa, pb, hok, hfa, hfb⟩
              · rw [findPerson] at hq2
                rw [hn1] at hq2
                simp at hq2
              · rw [findPerson] at hq2
                rw [hfa] at hq2
                have hpa : (findGenFact pa).isSome := hq2
                have hgoal : findPerson { s2 with persons := ps' } q = some pb := hfb
                rw [findGenFactId, hgoal]
                rcases hfa2 : findGenFact pa with _ | f
                · rw [hfa2] at hpa
                  simp at hpa
                · obtain ⟨_, _, _, _, _, hfactb, _⟩ :=
                    normalizePerson_ok_labeled_inv hfa2 hok
                  show (findGenFact pb).isSome = true
                  rw [hfactb]
                  rfl

/-- C1, counterexample: the claim says every person reachable from the
seed via parentChild edges *or via a couple edge from an
already-labeled partner* ends up with a generation fact.  In
`stFirstCouple`, a is labeled by the seed traversal and p shares a
couple relationship with a, yet p ends up with no generation fact: the
straggler step only inspects p's *first* couple relationship, which
links p to the unlabeled q. -/
theorem c1_counterexample :
    (addGenerations 0 9 stFirstCouple).toOption.map
        (fun s' => ((findGenFactId s' "a").isSome, (findGenFactId s' "p").isSome)) =
      some (true, false) ∧ cpRel "p" "a" ∈ stFirstCouple.relationships :=
  ⟨by decide, by decide⟩

/-- C1, amended: on a store with no pre-existing generation facts, when
`add_generations` returns, (i) every person carrying a generation fact
carries exactly one, with an integer value ≥ 0, and (ii) every person
reachable from the first person via parentChild edges carries one.  (A
person connected only by couple edges is labeled only when its *first*
couple relationship points at an already-labeled partner, so the
claim's couple clause fails; see the counterexample.) -/
theorem c1_generation_facts {today fuel : Nat} {s s' : Store}
    (hAll : AllUnlabeled s) (h : addGenerations today fuel s = Except.ok s') :
    (∀ p' ∈ s'.persons, (findGenFact p').isSome = true →
      (p'.facts.filter (fun x => x.ftype == FactType.generationNumber)).length = 1 ∧
        ∃ g, genValOf p' = some g ∧ 0 ≤ g) ∧
      ∀ p0 rest, s.persons = p0 :: rest → ∀ q, ReachPC s p0.id q →
        ∃ p' ∈ s'.persons, p'.id = q ∧ (findGenFact p').isSome = true := by
  obtain ⟨H1, _, H3, H4⟩ := addGenerations_unlabeled_analysis hAll h
  constructor
  · intro p' hp' hlab
    obtain ⟨hcount, g, hg⟩ := H3 p' hp' hlab
    refine ⟨hcount, g, hg, ?_⟩
    exact H1 g (List.mem_filterMap.mpr ⟨p', hp', hg⟩)
  · intro p0 rest hp q hreach
    have hq := H4 p0 rest hp q hreach
    rw [findGenFactId] at hq
    rcases hfp : findPerson s' q with _ | p'
    · rw [hfp] at hq
      simp at hq
    · rw [hfp] at hq
      exact ⟨p', findPerson_mem hfp, findPerson_id hfp, hq⟩

/-- Witness for the amended C1: on the chain a→b→c, person c is
reachable from the seed a, and indeed ends up labeled. -/
theorem c1_generation_facts_witness :
    ∃ p' ∈ stChainLabeled.persons, p'.id = "c" ∧ (findGenFact p').isSome = true :=
  (@c1_generation_facts 0 9 stChain stChainLabeled (by decide) (by decide)).2
    (mkP "a") [mkP "b", mkP "c"] rfl "c"
    (ReachPC.tail (ReachPC.tail ReachPC.refl
        ⟨pcRel "a" "b", by decide, rfl, Or.inl ⟨rfl, rfl⟩⟩)
      ⟨pcRel "b" "c", by decide, rfl, Or.inl ⟨rfl, rfl⟩⟩)

/-- C2, counterexample: the claim only assumes the *first* person is
initially unlabeled.  In `stPrelabeled`, the first person a is
unlabeled but b already carries generation −5; the run succeeds and the
minimum over the final generation values is −5, not 0. -/
theorem c2_counterexample :
    findGenFact (mkP "a") = none ∧
      (addGenerations 0 9 stPrelabeled).toOption.map
          (fun s' => minL (labeledVals s')) = some (some (-5)) :=
  ⟨rfl, by decide⟩

/-- C2, amended: on a store where *no* person initially carries a
generation fact, after a successful `add_generations` run the minimum
over the generation values of all labeled persons is exactly 0. -/
theorem c2_min_generation_zero {today fuel : Nat} {s s' : Store}
    (hAll : AllUnlabeled s) (h : addGenerations today fuel s = Except.ok s') :
    minL (labeledVals s') = some 0 := by
  obtain ⟨H1, H2, _, _⟩ := addGenerations_unlabeled_analysis hAll h
  obtain ⟨v, hvmem, hveq⟩ := H2
  subst hveq
  obtain ⟨m, hm⟩ := minL_isSome (List.ne_nil_of_mem hvmem)
  have hle := minL_le hm 0 hvmem
  have hge := H1 m (minL_mem hm)
  rw [hm]
  congr 1
  omega

/-- Witness for the amended C2: the chain run yields minimum 0. -/
theorem c2_min_generation_zero_witness :
    minL (labeledVals stChainLabeled) = some 0 :=
  @c2_min_generation_zero 0 9 stChain stChainLabeled (by decide) (by decide)

/-! ### Claim C6: partner-generation reconciliation -/

theorem firstCoupleRel_congr {s s' : Store}
    (h : s'.relationships = s.relationships) (pid : String) :
    firstCoupleRel s' pid = firstCoupleRel s pid := by
  rw [firstCoupleRel, firstCoupleRel, h]

theorem evol_findPerson_isSome {s s' : Store} (h : Evol s s') {q : String}
    (hq : (findPerson s q).isSome) : (findPerson s' q).isSome := by
  rw [findPerson_isSome_iff] at hq ⊢
  rw [h.2.1]
  exact hq

theorem normList_genValOfId {mg aS : Int} {s2 : Store} {ps' : List Person}
    {q : String} {f : Fact} {v : String} {g : Int}
    (hnl : normList mg aS s2.persons = Except.ok ps')
    (hq : findGenFactId s2 q = some f) (hv : f.value = some v)
    (hg : pyInt v = some g) :
    genValOfId { s2 with persons := ps' } q = some (g + mg) := by
  rw [findGenFactId] at hq
  rcases hfp : findPerson s2 q with _ | pa
  · rw [hfp] at hq
    cases hq
  · rw [hfp] at hq
    have hfa : findGenFact pa = some f := hq
    rcases find?_forall₂ (fun a b hr => normalizePerson_ok_id hr)
        (normList_forall₂ hnl) q with ⟨hn1, _⟩ | ⟨pa', pb, hok, hfa', hfb⟩
    · rw [findPerson] at hfp
      rw [hn1] at hfp
      cases hfp
    · have hpa : pa' = pa := by
        rw [findPerson] at hfp
        rw [hfa'] at hfp
        exact Option.some.inj hfp
      subst hpa
      obtain ⟨v', g', hv', hg', _, hfactb, _⟩ := normalizePerson_ok_labeled_inv hfa hok
      have hveq : v = v' := by
        rw [hv] at hv'
        exact Option.some.inj hv'
      have hgeq : g = g' := by
        rw [← hveq] at hg'
        rw [hg] at hg'
        exact Option.some.inj hg'
      rw [genValOfId, findGenFactId]
      have hfind : findPerson { s2 with persons := ps' } q = some pb := hfb
      rw [hfind]
      show (findGenFact pb).bind (fun f => f.value.bind pyInt) = some (g + mg)
      rw [hfactb, ← hgeq]
      exact pyInt_pyStr (g + mg)

/-- Walking the straggler loop: a person d with no parentChild edges,
whose first couple relationship points at a partner a already labeled
with the fact `fA`, is stamped with the partner's parsed generation
when its turn comes, and a's fact survives untouched. -/
theorem stragglerLoop_couple_label :
    ∀ (ids : List String) (fuel : Nat) (s : Store) (m : Int) (s' : Store)
      (m' : Int) (dId aId : String) (r : Relationship) (fA : Fact)
      (v : String) (g : Int),
      stragglerLoop false fuel ids s m = Except.ok (s', m') →
      dId ∈ ids →
      (findPerson s dId).isSome →
      findGenFactId s dId = none →
      parentIds s dId = [] → childIds s dId = [] →
      firstCoupleRel s dId = some r →
      refId (partnerRef r dId) = aId →
      findGenFactId s aId = some fA →
      fA.value = some v → pyInt v = some g →
      findGenFactId s' dId = some (genFact g) ∧ findGenFactId s' aId = some fA := by
  intro ids
  induction ids with
  | nil =>
    intro fuel s m s' m' dId aId r fA v g h hmem
    simp at hmem
  | cons pid rest ih =>
    intro fuel s m s' m' dId aId r fA v g h hmem hdper hdun hdp hdc hfc hpr hA hv hg
    rcases hfp : findPerson s pid with _ | p
    · simp only [stragglerLoop, hfp] at h
      have hne : dId ≠ pid := by
        intro hc
        subst hc
        rw [hfp] at hdper
        simp at hdper
      exact ih fuel s m s' m' dId aId r fA v g h
        (List.mem_of_ne_of_mem hne hmem) hdper hdun hdp hdc hfc hpr hA hv hg
    · simp only [stragglerLoop, hfp] at h
      by_cases hgl : (findGenFact p).isSome = true
      · rw [if_pos hgl] at h
        have hne : dId ≠ pid := by
          intro hc
          subst hc
          rw [findGenFactId, hfp] at hdun
          have : findGenFact p = none := hdun
          rw [this] at hgl
          simp at hgl
        exact ih fuel s m s' m' dId aId r fA v g h
          (List.mem_of_ne_of_mem hne hmem) hdper hdun hdp hdc hfc hpr hA hv hg
      · rw [if_neg hgl] at h
        rcases hfcp : firstCoupleRel s pid with _ | r0
        · simp only [hfcp] at h
          have hne : dId ≠ pid := by
            intro hc
            subst hc
            rw [hfcp] at hfc
            cases hfc
          exact ih fuel s m s' m' dId aId r fA v g h
            (List.mem_of_ne_of_mem hne hmem) hdper hdun hdp hdc hfc hpr hA hv hg
        · simp only [hfcp] at h
          rcases hpp : findPerson s (refId (partnerRef r0 pid)) with _ | partner
          · simp only [hpp] at h
            exact Except.noConfusion h
          · simp only [hpp] at h
            rcases hpg : findGenFact partner with _ | f
            · simp only [hpg] at h
              have hne : dId ≠ pid := by
                intro hc
                subst hc
                rw [hfc] at hfcp
                have hr0 : r0 = r := (Option.some.inj hfcp).symm
                subst hr0
                rw [hpr] at hpp
                rw [findGenFactId, hpp] at hA
                have : findGenFact partner = some fA := hA
                rw [hpg] at this
                cases this
              exact ih fuel s m s' m' dId aId r fA v g h
                (List.mem_of_ne_of_mem hne hmem) hdper hdun hdp hdc hfc hpr hA hv hg
            · simp only [hpg] at h
              rcases hfv : f.value with _ | v0
              · simp only [hfv] at h
                exact Except.noConfusion h
              · simp only [hfv] at h
                rcases hpi : pyInt v0 with _ | g0
                · simp only [hpi] at h
                  exact Except.noConfusion h
                · simp only [hpi] at h
                  rcases hrec : addGenRec fuel s pid g0 with _ | ⟨s1, ys⟩
                  · simp only [hrec] at h
                    exact Except.noConfusion h
                  · simp only [hrec] at h
                    rcases hmn : minL ys with _ | mn
                    · simp only [hmn] at h
                      exact Except.noConfusion h
                    · simp only [hmn] at h
                      by_cases hdq : dId = pid
                      · -- d's own turn: it is stamped with the partner's value
                        subst hdq
                        rw [hfc] at hfcp
                        have hr0 : r0 = r := (Option.some.inj hfcp).symm
                        subst hr0
                        rw [hpr] at hpp
                        rw [findGenFactId, hpp] at hA
                        have hAf : findGenFact partner = some fA := hA
                        rw [hpg] at hAf
                        have hffA : f = fA := Option.some.inj hAf
                        subst hffA
                        rw [hv] at hfv
                        have hv0 : v0 = v := (Option.some.inj hfv).symm
                        subst hv0
                        rw [hg] at hpi
                        have hg0 : g0 = g := (Option.some.inj hpi).symm
                        subst hg0
                        have hpun : findGenFact p = none := by
                          rw [findGenFactId, hfp] at hdun
                          exact hdun
                        obtain ⟨hd1, _⟩ := addGenRec_start_unlabeled hfp hpun hrec
                        have hA1 : findGenFactId s1 aId = some f := by
                          refine (addGenRec_evol hrec).2.2 aId f ?_
                          rw [findGenFactId, hpp]
                          exact hA
                        obtain ⟨hE', _, _, _⟩ :=
                          stragglerLoop_main rest false fuel s1 _ s' m' h
                        exact ⟨hE'.2.2 _ _ hd1, hE'.2.2 _ _ hA1⟩
                      · -- someone else's run: d stays unlabeled, a keeps its fact
                        obtain ⟨hE1, _, _, _, hSC, _⟩ :=
                          addGenRec_main fuel s pid g0 s1 ys hrec
                        have hdun1 : findGenFactId s1 dId = none := by
                          rcases hd1 : findGenFactId s1 dId with _ | fD
                          · rfl
                          · exfalso
                            rcases hSC dId hdun (by rw [hd1]; rfl) with hc | hc
                            · exact hdq hc
                            · rw [ConnectedPC, hdp, hdc] at hc
                              rcases hc with hc | hc <;> exact hc rfl
                        refine ih fuel s1 _ s' m' dId aId r fA v g h
                          (List.mem_of_ne_of_mem hdq hmem)
                          (evol_findPerson_isSome hE1 hdper) hdun1 ?_ ?_ ?_ hpr
                          (hE1.2.2 aId fA hA) hv hg
                        · rw [parentIds_congr hE1.1]
                          exact hdp
                        · rw [childIds_congr hE1.1]
                          exact hdc
                        · rw [firstCoupleRel_congr hE1.1]
                          exact hfc

/-- Counterexample to claim C6's "namely 0": in `stCoupleShift` the
seed s holds raw generation 0 after the seed traversal, d is connected
to s only by a couple relationship, yet the final pipeline assigns d
the normalized value 1 (the seed's parent sits at −1, so the shift
`min_generation` is 1 and every reconciled value moves with it). -/
theorem c6_counterexample :
    addGenRec 9 stCoupleShift "s" 0 = some (stCoupleShiftSeed, [-1, 0]) ∧
      genValOfId stCoupleShiftSeed "s" = some 0 ∧
      parentIds stCoupleShiftSeed "d" = [] ∧
      childIds stCoupleShiftSeed "d" = [] ∧
      firstCoupleRel stCoupleShiftSeed "d" = some (cpRel "s" "d") ∧
      (addGenerations 0 9 stCoupleShift).toOption.map
        (fun t => genValOfId t "d") = some (some 1) := by
  decide

/-- Claim C6 (amended): partner-generation reconciliation.  If after
the seed traversal the person A (id `aId`) carries a generation fact
with parsed value g, and D (id `dId`) is still unlabeled, has no
parentChild edges at all, and its first couple relationship points at
A, then a successful `add_generations` run gives D and A the SAME
normalized generation value — but that common value is g plus the
final `min_generation`, not necessarily 0 (see `c6_counterexample`). -/
theorem c6_partner_generation {today fuel : Nat} {s : Store} {p0 : Person}
    {rest : List Person} {s1 : Store} {ys0 : List Int} {dId aId : String}
    {r : Relationship} {fA : Fact} {v : String} {g : Int} {s' : Store}
    (hps : s.persons = p0 :: rest)
    (hseed : addGenRec fuel s p0.id 0 = some (s1, ys0))
    (hdper : (findPerson s1 dId).isSome)
    (hdun : findGenFactId s1 dId = none)
    (hdp : parentIds s1 dId = [])
    (hdc : childIds s1 dId = [])
    (hfc : firstCoupleRel s1 dId = some r)
    (hpr : refId (partnerRef r dId) = aId)
    (hA : findGenFactId s1 aId = some fA)
    (hv : fA.value = some v)
    (hg : pyInt v = some g)
    (hok : addGenerations today fuel s = Except.ok s') :
    ∃ w, genValOfId s' dId = some w ∧ genValOfId s' aId = some w := by
  rw [addGenerations] at hok
  simp only [addGenerationsCore, hps] at hok
  simp only [hseed] at hok
  rcases hm : minL ys0 with _ | m0
  · simp only [hm] at hok
    exact Except.noConfusion hok
  · simp only [hm] at hok
    rcases hsl : stragglerLoop false fuel ((p0 :: rest).map (fun p => p.id))
        s1 (-m0) with e | ⟨s2, mg⟩
    · simp only [hsl] at hok
      exact Except.noConfusion hok
    · simp only [hsl] at hok
      rcases hnl : normList mg (ageStartOf today s2) s2.persons with e | ps'
      · simp only [hnl] at hok
        exact Except.noConfusion hok
      · simp only [hnl] at hok
        injection hok with hok'
        subst hok'
        have hmem : dId ∈ (p0 :: rest).map (fun p => p.id) := by
          have h1 := findPerson_isSome_iff.mp hdper
          rw [(addGenRec_evol hseed).2.1, hps] at h1
          exact h1
        obtain ⟨hd2, hA2⟩ := stragglerLoop_couple_label
          ((p0 :: rest).map (fun p => p.id)) fuel s1 (-m0) s2 mg dId aId r fA
          v g hsl hmem hdper hdun hdp hdc hfc hpr hA hv hg
        exact ⟨g + mg, normList_genValOfId hnl hd2 rfl (pyInt_pyStr g),
          normList_genValOfId hnl hA2 hv hg⟩

/-- Concrete instantiation of the C6 theorem on `stCouple`: the seed a
gets generation 0, the parentChild-disconnected spouse d is reconciled
to it, and both end at the same normalized value. -/
theorem c6_partner_generation_witness :
    addGenerations 0 9 stCouple = Except.ok stCoupleOut ∧
      ∃ w, genValOfId stCoupleOut "d" = some w ∧
        genValOfId stCoupleOut "a" = some w :=
  ⟨by decide,
    c6_partner_generation rfl
      (by decide : addGenRec 9 stCouple "a" 0 = some (stCoupleSeed, [1, 0]))
      (by decide) (by decide) (by decide) (by decide)
      (by decide : firstCoupleRel stCoupleSeed "d" = some (cpRel "a" "d"))
      (by decide : refId (partnerRef (cpRel "a" "d") "d") = "a")
      (by decide : findGenFactId stCoupleSeed "a" = some (genFact 0))
      rfl (pyInt_pyStr 0)
      (by decide : addGenerations 0 9 stCouple = Except.ok stCoupleOut)⟩

/-! ### Claim C5: the membership characterization of `filter_relatives` -/

/-- The work-stack loop, fully characterized: the collected list only
grows, everything collected is either initial or in the closure of a
stack entry, and the closure of every stack entry is collected. -/
theorem stackLoop_main (f : Store → Person → List Person) :
    ∀ (fuel : Nat) (s : Store) (rel stack out : List Person),
      stackLoop f fuel s rel stack = some out →
      (∀ y ∈ rel, y ∈ out) ∧
        (∀ y ∈ out, y ∈ rel ∨ ∃ x ∈ stack, CloseFrom f s x y) ∧
        (∀ x ∈ stack, ∀ d, CloseFrom f s x d → d ∈ out) := by
  intro fuel
  induction fuel with
  | zero =>
    intro s rel stack out h
    rw [stackLoop] at h
    by_cases he : stack.isEmpty
    · rw [if_pos he] at h
      have hout : rel = out := Option.some.inj h
      subst hout
      refine ⟨fun y hy => hy, fun y hy => Or.inl hy, ?_⟩
      intro x hx
      rw [List.isEmpty_iff] at he
      subst he
      simp at hx
    · rw [if_neg he] at h
      exact Option.noConfusion h
  | succ fuel ih =>
    intro s rel stack out h
    rcases hl : stack.getLast? with _ | x
    · simp only [stackLoop, hl] at h
      have hout : rel = out := Option.some.inj h
      subst hout
      have hst : stack = [] := List.getLast?_eq_none_iff.mp hl
      subst hst
      refine ⟨fun y hy => hy, fun y hy => Or.inl hy, ?_⟩
      intro x hx
      simp at hx
    · simp only [stackLoop, hl] at h
      obtain ⟨H1, H2, H3⟩ := ih s (rel ++ f s x) (stack.dropLast ++ f s x) out h
      have hxmem : x ∈ stack := List.mem_of_mem_getLast? hl
      refine ⟨?_, ?_, ?_⟩
      · intro y hy
        exact H1 y (List.mem_append_left _ hy)
      · intro y hy
        rcases H2 y hy with hy1 | ⟨x', hx', hc⟩
        · rcases List.mem_append.mp hy1 with hy2 | hy2
          · exact Or.inl hy2
          · exact Or.inr ⟨x, hxmem, CloseFrom.base hy2⟩
        · rcases List.mem_append.mp hx' with hx2 | hx2
          · exact Or.inr ⟨x', (List.dropLast_sublist stack).mem hx2, hc⟩
          · exact Or.inr ⟨x, hxmem, CloseFrom.trans hx2 hc⟩
      · intro x' hx' d hd
        have hsplit : x' ∈ stack.dropLast ∨ x' = x := by
          have hre : stack.dropLast ++ [x] = stack :=
            List.dropLast_append_getLast? x hl
          rw [← hre] at hx'
          rcases List.mem_append.mp hx' with h1 | h1
          · exact Or.inl h1
          · right
            simpa using h1
        rcases hsplit with h1 | h1
        · exact H3 x' (List.mem_append_left _ h1) d hd
        · subst h1
          cases hd with
          | base hm => exact H1 d (List.mem_append_right _ hm)
          | trans hm hc => exact H3 _ (List.mem_append_right _ hm) d hc

theorem descFrom_iff_closeFrom {s : Store} {x y : Person} :
    DescFrom s x y ↔ CloseFrom childrenOf s x y := by
  constructor
  · intro h
    induction h with
    | child hm => exact CloseFrom.base hm
    | step hm _ h2 => exact CloseFrom.trans hm h2
  · intro h
    induction h with
    | base hm => exact DescFrom.child hm
    | trans hm _ h2 => exact DescFrom.step hm h2

theorem ancFrom_iff_closeFrom {s : Store} {x y : Person} :
    AncFrom s x y ↔ CloseFrom parentsOf s x y := by
  constructor
  · intro h
    induction h with
    | parent hm => exact CloseFrom.base hm
    | step hm _ h2 => exact CloseFrom.trans hm h2
  · intro h
    induction h with
    | base hm => exact AncFrom.parent hm
    | trans hm _ h2 => exact AncFrom.step hm h2

theorem childrenOf_mem {s : Store} {x y : Person} (h : y ∈ childrenOf s x) :
    y ∈ s.persons := by
  rw [childrenOf] at h
  rcases List.mem_filterMap.mp h with ⟨a, _, ha⟩
  exact List.mem_of_find?_eq_some ha

theorem parentsOf_mem {s : Store} {x y : Person} (h : y ∈ parentsOf s x) :
    y ∈ s.persons := by
  rw [parentsOf] at h
  rcases List.mem_filterMap.mp h with ⟨a, _, ha⟩
  exact List.mem_of_find?_eq_some ha

theorem partnersOf_mem {s : Store} {x y : Person} (h : y ∈ partnersOf s x) :
    y ∈ s.persons := by
  rw [partnersOf] at h
  rcases List.mem_filterMap.mp h with ⟨a, _, ha⟩
  exact List.mem_of_find?_eq_some ha

theorem descFrom_mem {s : Store} {x y : Person} (h : DescFrom s x y) :
    y ∈ s.persons := by
  induction h with
  | child hm => exact childrenOf_mem hm
  | step _ _ h2 => exact h2

theorem ancFrom_mem {s : Store} {x y : Person} (h : AncFrom s x y) :
    y ∈ s.persons := by
  induction h with
  | parent hm => exact parentsOf_mem hm
  | step _ _ h2 => exact h2

theorem relClose_mem {s : Store} {anchor p : Person}
    (ha : anchor ∈ s.persons) (h : RelClose s anchor p) : p ∈ s.persons := by
  rcases h with h | h | ⟨x, _, hd⟩ | h
  · rw [h]
    exact ha
  · exact List.mem_of_mem_filter h
  · exact descFrom_mem hd
  · exact ancFrom_mem h

/-- Claim C5: on every store and existing anchor on which it succeeds,
`filter_relatives` returns exactly the closure the spec describes: a
person is in the result iff it is the anchor, a sibling of the anchor,
a descendant of the anchor or of one of its siblings, an ancestor of
the anchor, or a partner of such a person — in particular the result
contains all of these, and contains nobody reachable only as a partner
of a partner or only as a child of a newly added partner. -/
theorem c5_filter_membership {fuel : Nat} {s : Store} {pid : String}
    {out : Store} {anchor : Person}
    (hf : findPerson s pid = some anchor)
    (hok : filterRelatives fuel s pid = Except.ok out) :
    ∀ p, p ∈ out.persons ↔
      RelClose s anchor p ∨ ∃ q, RelClose s anchor q ∧ p ∈ partnersOf s q := by
  simp only [filterRelatives, hf] at hok
  split at hok
  · exact Except.noConfusion hok
  · rename_i rel1 h1
    split at hok
    · exact Except.noConfusion hok
    · rename_i rel2 h2
      split at hok
      · exact Except.noConfusion hok
      · split at hok
        · exact Except.noConfusion hok
        · injection hok with hok'
          subst hok'
          obtain ⟨H11, H12, H13⟩ := stackLoop_main childrenOf fuel s
            (anchor :: siblingsOf s anchor) (anchor :: siblingsOf s anchor) rel1 h1
          obtain ⟨H21, H22, H23⟩ := stackLoop_main parentsOf fuel s
            rel1 [anchor] rel2 h2
          have hrel2 : ∀ y, y ∈ rel2 ↔ RelClose s anchor y := by
            intro y
            constructor
            · intro hy
              rcases H22 y hy with hy1 | ⟨x, hx, hc⟩
              · rcases H12 y hy1 with hy2 | ⟨x, hx, hc⟩
                · rcases List.mem_cons.mp hy2 with h | h
                  · exact Or.inl h
                  · exact Or.inr (Or.inl h)
                · exact Or.inr (Or.inr (Or.inl
                    ⟨x, List.mem_cons.mp hx, descFrom_iff_closeFrom.mpr hc⟩))
              · have hxa : x = anchor := by simpa using hx
                subst hxa
                exact Or.inr (Or.inr (Or.inr (ancFrom_iff_closeFrom.mpr hc)))
            · intro hy
              rcases hy with h | h | ⟨x, hx, hd⟩ | h
              · rw [h]
                exact H21 anchor (H11 anchor (List.mem_cons_self anchor _))
              · exact H21 y (H11 y (List.mem_cons_of_mem anchor h))
              · refine H21 y (H13 x ?_ y (descFrom_iff_closeFrom.mp hd))
                rcases hx with h | h
                · rw [h]
                  exact List.mem_cons_self anchor _
                · exact List.mem_cons_of_mem anchor h
              · exact H23 anchor (List.mem_singleton.mpr rfl) y
                  (ancFrom_iff_closeFrom.mp h)
          have hrel3 : ∀ q,
              q ∈ rel2 ++ (rel2.map (partnersOf s)).flatten ↔
                RelClose s anchor q ∨
                  ∃ x, RelClose s anchor x ∧ q ∈ partnersOf s x := by
            intro q
            rw [List.mem_append]
            constructor
            · rintro (h | h)
              · exact Or.inl ((hrel2 q).mp h)
              · rcases List.mem_flatten.mp h with ⟨l, hl, hq⟩
                rcases List.mem_map.mp hl with ⟨x, hx, hxl⟩
                exact Or.inr ⟨x, (hrel2 x).mp hx, by rw [hxl]; exact hq⟩
            · rintro (h | ⟨x, hx, hq⟩)
              · exact Or.inl ((hrel2 q).mpr h)
              · exact Or.inr (List.mem_flatten.mpr
                  ⟨partnersOf s x, List.mem_map.mpr ⟨x, (hrel2 x).mpr hx, rfl⟩, hq⟩)
          intro p
          constructor
          · intro hp
            obtain ⟨_, hmem⟩ := List.mem_filter.mp hp
            exact (hrel3 p).mp (by simpa using hmem)
          · intro hp
            have hpersons : p ∈ s.persons := by
              rcases hp with h | ⟨q, _, hpart⟩
              · exact relClose_mem (findPerson_mem hf) h
              · exact partnersOf_mem hpart
            exact List.mem_filter.mpr
              ⟨hpersons, by simpa using (hrel3 p).mpr hp⟩

/-- Concrete instantiation of the C5 theorem: on the chain a→b→c with
anchor b the filter keeps the whole store (ancestor a, descendant c),
and the characterization evaluates on it. -/
theorem c5_filter_membership_witness :
    filterRelatives 9 stChain "b" = Except.ok stChain ∧
      ∀ p, p ∈ stChain.persons ↔
        RelClose stChain (mkP "b") p ∨
          ∃ q, RelClose stChain (mkP "b") q ∧ p ∈ partnersOf stChain q :=
  ⟨by decide,
    c5_filter_membership
      (by decide : findPerson stChain "b" = some (mkP "b"))
      (by decide : filterRelatives 9 stChain "b" = Except.ok stChain)⟩

end CsvGedcomx
